import Mathlib

/-!
Verification development for the `badlgorithms` directed-graph library
(`src/graph/mod.rs`, `src/graph/vertex.rs`, `src/graph/vertex_idx.rs`,
`src/graph/algo/bfs.rs`).

`std::collections::HashMap<VertexIdx, α>` is realized as an association
list (`HM α` below).  `HashMap` iteration order is unspecified in Rust; the
list order is one determinization of it, and none of the properties proved
here depend on it.  `VertexIdx` is its underlying `usize` counter value,
modelled as `Nat`.  The `u32` BFS distance field is a `Nat` whose
assignments are reduced `% 2 ^ 32` (release-mode wrapping semantics).
-/

/-- Vertex identifiers: the `usize` value carried by `VertexIdx`. -/
abbrev Idx := Nat

/-- Association-list realization of `std::collections::HashMap<VertexIdx, α>`. -/
abbrev HM (α : Type) := List (Idx × α)

/-- `HashMap::get`: the value at the first entry with key `k`. -/
def HM.get {α : Type} (k : Idx) : HM α → Option α
  | [] => none
  | p :: t => if p.1 = k then some p.2 else HM.get k t

/-- `HashMap::insert`: replace the entry with key `k` in place, or append a
fresh entry. -/
def HM.insert {α : Type} (k : Idx) (v : α) : HM α → HM α
  | [] => [(k, v)]
  | p :: t => if p.1 = k then (k, v) :: t else p :: HM.insert k v t

/-- `HashMap::remove` (value discarded): drop the entry with key `k`. -/
def HM.remove {α : Type} (k : Idx) : HM α → HM α
  | [] => []
  | p :: t => if p.1 = k then t else p :: HM.remove k t

/-- `HashMap::contains_key`. -/
def HM.containsKey {α : Type} (k : Idx) (m : HM α) : Bool :=
  (HM.get k m).isSome

/-- The key list of a map (used to state well-formedness). -/
def HM.keys {α : Type} (m : HM α) : List Idx :=
  m.map Prod.fst

/-- `Vertex<V, E>` (src/graph/vertex.rs): a payload and the outgoing edges. -/
structure Vertex (V E : Type) where
  weight : V
  edges : HM E
deriving DecidableEq

/-- `Graph<V, E>` (src/graph/mod.rs): its single field `vertices`. -/
abbrev Graph (V E : Type) := HM (Vertex V E)

/-- `Vertex::is_adjacent`: `self.edges.iter().any(|e| *e.0 == to)`. -/
def Vertex.isAdjacent {V E : Type} (vx : Vertex V E) (t : Idx) : Bool :=
  List.any vx.edges (fun e => e.1 == t)

/-- `Graph::get_vertex` (and `get_mut_vertex`): `self.vertices.get(&idx)`. -/
def Graph.getVertex {V E : Type} (g : Graph V E) (idx : Idx) : Option (Vertex V E) :=
  HM.get idx g

/-- `Graph::insert_vertex`.  `idx` stands for the identifier produced by
`VertexIdx::new()`; the stored vertex has an empty edge map. -/
def Graph.insertVertex {V E : Type} (g : Graph V E) (w : V) (idx : Idx) : Graph V E :=
  HM.insert idx ⟨w, []⟩ g

/-- `Graph::insert_or_update_vertex`: remove the old entry, keep its edges
(`unwrap_or_default` gives the empty map), and insert the new vertex. -/
def Graph.insertOrUpdateVertex {V E : Type} (g : Graph V E) (w : V) (idx : Idx) :
    Graph V E :=
  let es := ((HM.get idx g).map Vertex.edges).getD []
  HM.insert idx ⟨w, es⟩ (HM.remove idx g)

/-- `Graph::remove_vertex`: remove the vertex and strip every edge that
targeted it from the remaining vertices.  Returns the removed vertex
(`None` leaves the graph unchanged) together with the updated graph. -/
def Graph.removeVertex {V E : Type} (g : Graph V E) (idx : Idx) :
    Option (Vertex V E) × Graph V E :=
  match HM.get idx g with
  | none => (none, g)
  | some vx =>
    (some vx,
      (HM.remove idx g).map (fun p => (p.1, ⟨p.2.weight, HM.remove idx p.2.edges⟩)))

/-- `Graph::insert_or_update_edge`: `None` when `to` is absent, `None` when
`from` is absent (via `get_mut(&from)?`), otherwise store the edge weight. -/
def Graph.insertOrUpdateEdge {V E : Type} (g : Graph V E) (f t : Idx) (w : E) :
    Option (Graph V E) :=
  if HM.containsKey t g then
    match HM.get f g with
    | none => none
    | some vx => some (HM.insert f ⟨vx.weight, HM.insert t w vx.edges⟩ g)
  else none

/-- `Graph::insert_or_update_edges`: batch form; triples with a missing
endpoint are silently skipped. -/
def Graph.insertOrUpdateEdges {V E : Type} (g : Graph V E)
    (es : List (Idx × Idx × E)) : Graph V E :=
  es.foldl
    (fun g e =>
      if HM.containsKey e.2.1 g then
        match HM.get e.1 g with
        | none => g
        | some vx => HM.insert e.1 ⟨vx.weight, HM.insert e.2.1 e.2.2 vx.edges⟩ g
      else g)
    g

/-- `Graph::remove_edge`: `self.vertices.get_mut(&from)?.edges.remove(&to)`;
returns the removed weight together with the updated graph. -/
def Graph.removeEdge {V E : Type} (g : Graph V E) (f t : Idx) :
    Option E × Graph V E :=
  match HM.get f g with
  | none => (none, g)
  | some vx => (HM.get t vx.edges, HM.insert f ⟨vx.weight, HM.remove t vx.edges⟩ g)

/-- The edge weight stored at `(f, t)`, read through `get_vertex`. -/
def Graph.getEdge {V E : Type} (g : Graph V E) (f t : Idx) : Option E :=
  (HM.get f g).bind (fun vx => HM.get t vx.edges)

/-- Phase 1 of `Graph::filter_map`: for every existing vertex id, insert the
mapped payload under the same id into the fresh output graph. -/
def Graph.filterMapVertices {V E NV NE : Type} (g : Graph V E)
    (vmap : Idx → Option NV) : Graph NV NE :=
  g.foldl
    (fun out p =>
      match vmap p.1 with
      | some w => Graph.insertOrUpdateVertex out w p.1
      | none => out)
    []

/-- The inner loop of `Graph::filter_map`'s edge pass for one source vertex
`f`.  A missing `from` aborts the whole remaining edge list of this vertex
(the `continue 'outer` in the source); a missing `to` skips one edge. -/
def Graph.edgePassVertex {E NV NE : Type}
    (emap : (Idx × Vertex NV NE) → (Idx × Vertex NV NE) → E → Option NE)
    (f : Idx) : List (Idx × E) → Graph NV NE → Graph NV NE
  | [], out => out
  | e :: rest, out =>
    match HM.get f out with
    | none => out
    | some fv =>
      match HM.get e.1 out with
      | none => Graph.edgePassVertex emap f rest out
      | some tv =>
        match emap (f, fv) (e.1, tv) e.2 with
        | some nw =>
          Graph.edgePassVertex emap f rest
            ((Graph.insertOrUpdateEdge out f e.1 nw).getD out)
        | none => Graph.edgePassVertex emap f rest out

/-- `Graph::filter_map`. -/
def Graph.filterMap {V E NV NE : Type} (g : Graph V E)
    (vmap : Idx → Option NV)
    (emap : (Idx × Vertex NV NE) → (Idx × Vertex NV NE) → E → Option NE) :
    Graph NV NE :=
  g.foldl (fun out p => Graph.edgePassVertex emap p.1 p.2.edges out)
    (Graph.filterMapVertices g vmap)

/-- The per-edge variant of the edge pass: a missing `from` skips a single
edge instead of the rest of the vertex's edge list. -/
def Graph.edgePassVertexPE {E NV NE : Type}
    (emap : (Idx × Vertex NV NE) → (Idx × Vertex NV NE) → E → Option NE)
    (f : Idx) : List (Idx × E) → Graph NV NE → Graph NV NE
  | [], out => out
  | e :: rest, out =>
    match HM.get f out with
    | none => Graph.edgePassVertexPE emap f rest out
    | some fv =>
      match HM.get e.1 out with
      | none => Graph.edgePassVertexPE emap f rest out
      | some tv =>
        match emap (f, fv) (e.1, tv) e.2 with
        | some nw =>
          Graph.edgePassVertexPE emap f rest
            ((Graph.insertOrUpdateEdge out f e.1 nw).getD out)
        | none => Graph.edgePassVertexPE emap f rest out

/-- `filter_map` with the per-edge existence test (the behavior §9 of the
spec proposes as the corrected variant). -/
def Graph.filterMapPE {V E NV NE : Type} (g : Graph V E)
    (vmap : Idx → Option NV)
    (emap : (Idx × Vertex NV NE) → (Idx × Vertex NV NE) → E → Option NE) :
    Graph NV NE :=
  g.foldl (fun out p => Graph.edgePassVertexPE emap p.1 p.2.edges out)
    (Graph.filterMapVertices g vmap)

/-- The BFS visitation color (src/graph/algo/bfs.rs). -/
inductive Color
  | White
  | Grey
  | Black
deriving DecidableEq

/-- `EnhancedWeight<V>`: BFS metadata wrapped around a payload.  `distance`
is the `u32` field, kept as a `Nat` with assignments reduced `% 2 ^ 32`. -/
structure EnhancedWeight (V : Type) where
  parent : Option Idx
  distance : Nat
  color : Color
  weight : V
deriving DecidableEq

/-- `u32::MAX`, the sentinel "infinite" distance. -/
def u32MAX : Nat := 2 ^ 32 - 1

/-- The graph type BFS produces. -/
abbrev BGraph (V E : Type) := Graph (EnhancedWeight V) E

/-- The vertex map of the decoration pass at the top of
`breadth_first_search`: the closure passed to `filter_map`, which wraps the
payload of every existing vertex in an `EnhancedWeight` (the source becomes
`Grey` at distance 0, everything else `White` at the sentinel distance). -/
def bfsVmap {V E : Type} (g : Graph V E) (s : Idx) :
    Idx → Option (EnhancedWeight V) :=
  fun idx =>
    (HM.get idx g).map (fun vx =>
      if idx = s then ⟨none, 0, Color.Grey, vx.weight⟩
      else ⟨none, u32MAX, Color.White, vx.weight⟩)

/-- The pointwise decoration `bfsVmap` applies to a vertex entry (used to
state the closed form of the decoration pass). -/
def bfsF {V E : Type} (s : Idx) : Idx × Vertex V E → EnhancedWeight V :=
  fun p =>
    if p.1 = s then ⟨none, 0, Color.Grey, p.2.weight⟩
    else ⟨none, u32MAX, Color.White, p.2.weight⟩

/-- The decoration pass itself: `filter_map` with `bfsVmap`, keeping every
edge. -/
def bfsInit {V E : Type} (g : Graph V E) (s : Idx) : BGraph V E :=
  Graph.filterMap g (bfsVmap g s) (fun _ _ e => some e)

/-- The inner neighbor loop of BFS: for each cached neighbor id still
`White`, set its distance to the snapshotted distance plus one (a `u32`
addition), record the parent, mark it `Grey` and push it on the queue.  A
failed lookup propagates `none` (the `?` in the source). -/
def discoverNeighbors {V E : Type} (d : Nat) (cur : Idx) :
    List Idx → BGraph V E → List Idx → Option (BGraph V E × List Idx)
  | [], g, q => some (g, q)
  | n :: rest, g, q =>
    match HM.get n g with
    | none => none
    | some vx =>
      if vx.weight.color = Color.White then
        discoverNeighbors d cur rest
          (HM.insert n
            ⟨⟨some cur, (d + 1) % 2 ^ 32, Color.Grey, vx.weight.weight⟩, vx.edges⟩ g)
          (q ++ [n])
      else discoverNeighbors d cur rest g q

/-- The `while let Some(vertex_idx) = queue.pop_front()` loop of BFS,
written with explicit fuel (each iteration consumes one unit; the caller
supplies enough for the loop to run to completion).  Dequeue a vertex,
snapshot its distance and neighbor ids, discover the still-`White`
neighbors, then recolor the dequeued vertex `Black`. -/
def bfsLoop {V E : Type} : Nat → BGraph V E → List Idx → Option (BGraph V E)
  | 0, _, _ => none
  | _ + 1, g, [] => some g
  | fuel + 1, g, cur :: rest =>
    match HM.get cur g with
    | none => none
    | some vx =>
      match discoverNeighbors vx.weight.distance cur (HM.keys vx.edges) g rest with
      | none => none
      | some (g', q') =>
        match HM.get cur g' with
        | none => none
        | some vx' =>
          bfsLoop fuel
            (HM.insert cur
              ⟨⟨vx'.weight.parent, vx'.weight.distance, Color.Black,
                vx'.weight.weight⟩, vx'.edges⟩ g')
            q'

/-- `breadth_first_search` (src/graph/algo/bfs.rs): decorate the graph,
return `None` if the source is absent, otherwise run the queue loop seeded
with the source.  `2 * |V| + 1` units of fuel are provably enough for the
loop to terminate on its own. -/
def breadth_first_search {V E : Type} (g : Graph V E) (s : Idx) :
    Option (BGraph V E) :=
  let init := bfsInit g s
  if HM.containsKey s init then bfsLoop (2 * init.length + 1) init [s]
  else none

/-- `usize::MAX` (64-bit). -/
def usizeMAX : Nat := 2 ^ 64 - 1

/-- The counter update in `VertexIdx::new`: the compare-and-swap stores
`(idx + 1) % usize::MAX`. -/
def VertexIdx.next (idx : Nat) : Nat := (idx + 1) % usizeMAX

/-- The identifier returned by the `k`-th call to `VertexIdx::new` (the
process-wide counter starts at 0). -/
def VertexIdx.idAt : Nat → Nat
  | 0 => 0
  | k + 1 => VertexIdx.next (VertexIdx.idAt k)

/-- Number of `White` vertices (the BFS termination measure). -/
def countWhite {V E : Type} : BGraph V E → Nat
  | [] => 0
  | p :: t => (if p.2.weight.color = Color.White then 1 else 0) + countWhite t

/-- Number of non-`White` vertices (bounds the BFS distances). -/
def countNW {V E : Type} : BGraph V E → Nat
  | [] => 0
  | p :: t => (if p.2.weight.color = Color.White then 0 else 1) + countNW t

/-- Well-formedness of a graph value: vertex keys are distinct, each edge
map's keys are distinct, and every edge targets a present vertex.  Every
`Graph` value reachable through the public Rust API satisfies this. -/
def Graph.WF {V E : Type} (g : Graph V E) : Prop :=
  (HM.keys g).Nodup ∧
  (∀ p ∈ g, (HM.keys p.2.edges).Nodup) ∧
  (∀ p ∈ g, ∀ e ∈ p.2.edges, HM.containsKey e.1 g = true)

instance {V E : Type} (g : Graph V E) : Decidable (Graph.WF g) := by
  unfold Graph.WF
  infer_instance

/-- There is a directed edge `u → v` in `g`. -/
def HasEdge {V E : Type} (g : Graph V E) (u v : Idx) : Prop :=
  ∃ vx, HM.get u g = some vx ∧ (HM.get v vx.edges).isSome

/-- A directed walk from `s` to `v` of `n` edges through `g`. -/
inductive PathN {V E : Type} (g : Graph V E) (s : Idx) : Idx → Nat → Prop
  | nil : (HM.get s g).isSome → PathN g s s 0
  | step {u v n} : PathN g s u n → HasEdge g u v → PathN g s v (n + 1)

/-- `v` is reachable from `s` via the directed edges of `g`. -/
def Reachable {V E : Type} (g : Graph V E) (s v : Idx) : Prop :=
  ∃ n, PathN g s v n

/-- The full C1 contract of `breadth_first_search`: the result exists,
contains exactly the original vertex ids, gives the source distance 0 and
no parent, gives each reachable vertex the shortest-path distance in edge
count, and leaves each unreachable vertex at the sentinel distance with no
parent. -/
def BfsResultSpec {V E : Type} (g : Graph V E) (s : Idx) : Prop :=
  ∃ R, breadth_first_search g s = some R ∧
    (∀ v, (HM.get v R).isSome ↔ (HM.get v g).isSome) ∧
    (∃ vx, HM.get s R = some vx ∧ vx.weight.distance = 0 ∧ vx.weight.parent = none) ∧
    (∀ v, Reachable g s v →
      ∃ vx, HM.get v R = some vx ∧ PathN g s v vx.weight.distance ∧
        ∀ m, PathN g s v m → vx.weight.distance ≤ m) ∧
    (∀ v vx, HM.get v R = some vx → ¬ Reachable g s v →
      vx.weight.distance = u32MAX ∧ vx.weight.parent = none)

/-- Graphs reachable from the empty graph by sequences of the public
mutation/transform operations (the argument of `Graph.insertVertex` stands
for the freshly allocated id, and `Graph.filterMap` may change the payload
types). -/
inductive Reaches : {V E : Type} → Graph V E → Prop
  | empty {V E : Type} : Reaches ([] : Graph V E)
  | insVertex {V E : Type} {g : Graph V E} (w : V) (idx : Idx) :
      Reaches g → Reaches (Graph.insertVertex g w idx)
  | insUpdVertex {V E : Type} {g : Graph V E} (w : V) (idx : Idx) :
      Reaches g → Reaches (Graph.insertOrUpdateVertex g w idx)
  | rmVertex {V E : Type} {g : Graph V E} (idx : Idx) :
      Reaches g → Reaches (Graph.removeVertex g idx).2
  | insEdge {V E : Type} {g g' : Graph V E} (f t : Idx) (w : E) :
      Reaches g → Graph.insertOrUpdateEdge g f t w = some g' → Reaches g'
  | insEdges {V E : Type} {g : Graph V E} (es : List (Idx × Idx × E)) :
      Reaches g → Reaches (Graph.insertOrUpdateEdges g es)
  | rmEdge {V E : Type} {g : Graph V E} (f t : Idx) :
      Reaches g → Reaches (Graph.removeEdge g f t).2
  | fMap {V E NV NE : Type} {g : Graph V E} (vmap : Idx → Option NV)
      (emap : (Idx × Vertex NV NE) → (Idx × Vertex NV NE) → E → Option NE) :
      Reaches g → Reaches (Graph.filterMap g vmap emap)

/-- Pointwise agreement of presence and edge maps between two graphs whose
vertex payload types may differ (BFS decorates payloads but copies the
edge structure). -/
def EdgesAgree {V V' E : Type} (g : Graph V E) (g' : Graph V' E) : Prop :=
  ∀ k, (HM.get k g).map Vertex.edges = (HM.get k g').map Vertex.edges

/-- The BFS loop invariant at the head of each `while` iteration: the
decorated graph is well-formed; the source is present, non-`White`, at
distance 0 with no parent; the queue lists exactly the `Grey` vertices,
without duplicates, their distances forming a block of some `d` followed by
a block of `d + 1`; every non-`White` vertex carries its exact shortest-path
distance from the source; `White` vertices still carry the sentinel
distance and no parent; `Black` vertices have no `White` out-neighbors;
every non-`White` distance is below the number of non-`White` vertices; and
the graph is small enough for the `u32` distance field not to wrap. -/
structure BfsInv {V E : Type} (s : Idx) (g : BGraph V E) (q : List Idx) : Prop where
  wf : Graph.WF g
  srcIn : (HM.get s g).isSome = true
  srcF : ∀ vx, HM.get s g = some vx → vx.weight.color ≠ Color.White ∧
    vx.weight.distance = 0 ∧ vx.weight.parent = none
  qSub : ∀ v ∈ q, (HM.get v g).isSome = true
  qNodup : q.Nodup
  grey : ∀ v vx, HM.get v g = some vx → (vx.weight.color = Color.Grey ↔ v ∈ q)
  mono : ∃ d1 q1 q2, q = q1 ++ q2 ∧
    (∀ v ∈ q1, ∃ vx, HM.get v g = some vx ∧ vx.weight.distance = d1) ∧
    (∀ v ∈ q2, ∃ vx, HM.get v g = some vx ∧ vx.weight.distance = d1 + 1)
  reached : ∀ v vx, HM.get v g = some vx → vx.weight.color ≠ Color.White →
    PathN g s v vx.weight.distance ∧ ∀ m, PathN g s v m → vx.weight.distance ≤ m
  whiteF : ∀ v vx, HM.get v g = some vx → vx.weight.color = Color.White →
    vx.weight.distance = u32MAX ∧ vx.weight.parent = none
  blackCl : ∀ u vxu, HM.get u g = some vxu → vxu.weight.color = Color.Black →
    ∀ e ∈ vxu.edges, ∀ vxv, HM.get e.1 g = some vxv →
      vxv.weight.color ≠ Color.White
  distB : ∀ v vx, HM.get v g = some vx → vx.weight.color ≠ Color.White →
    vx.weight.distance + 1 ≤ countNW g
  sizeB : g.length < 2 ^ 32

/-- The invariant holding while the dequeued vertex `cur` (whose unchanged
entry is `cvx`, `Grey` at distance `dc`) has been popped but not yet
recolored `Black`: like `BfsInv`, with the `Grey` set being the queue plus
`cur`, all queue distances in `{dc, dc + 1}` (the `dc` block first), and
every `Grey` distance at least `dc`. -/
structure DInv {V E : Type} (s cur : Idx) (cvx : Vertex (EnhancedWeight V) E)
    (dc : Nat) (g : BGraph V E) (q : List Idx) : Prop where
  wf : Graph.WF g
  curE : HM.get cur g = some cvx
  curD : cvx.weight.distance = dc
  srcIn : (HM.get s g).isSome = true
  srcF : ∀ vx, HM.get s g = some vx → vx.weight.color ≠ Color.White ∧
    vx.weight.distance = 0 ∧ vx.weight.parent = none
  qSub : ∀ v ∈ q, (HM.get v g).isSome = true
  qNodup : q.Nodup
  curNotQ : cur ∉ q
  grey : ∀ v vx, HM.get v g = some vx →
    (vx.weight.color = Color.Grey ↔ (v ∈ q ∨ v = cur))
  mono : ∃ q1 q2, q = q1 ++ q2 ∧
    (∀ v ∈ q1, ∃ vx, HM.get v g = some vx ∧ vx.weight.distance = dc) ∧
    (∀ v ∈ q2, ∃ vx, HM.get v g = some vx ∧ vx.weight.distance = dc + 1)
  greyD : ∀ v vx, HM.get v g = some vx → vx.weight.color = Color.Grey →
    dc ≤ vx.weight.distance
  reached : ∀ v vx, HM.get v g = some vx → vx.weight.color ≠ Color.White →
    PathN g s v vx.weight.distance ∧ ∀ m, PathN g s v m → vx.weight.distance ≤ m
  whiteF : ∀ v vx, HM.get v g = some vx → vx.weight.color = Color.White →
    vx.weight.distance = u32MAX ∧ vx.weight.parent = none
  blackCl : ∀ u vxu, HM.get u g = some vxu → vxu.weight.color = Color.Black →
    ∀ e ∈ vxu.edges, ∀ vxv, HM.get e.1 g = some vxv →
      vxv.weight.color ≠ Color.White
  distB : ∀ v vx, HM.get v g = some vx → vx.weight.color ≠ Color.White →
    vx.weight.distance + 1 ≤ countNW g
  sizeB : g.length < 2 ^ 32

/-- The BFS distance-correctness scenario graph of §8 of the spec: vertices
A, B, C, D under ids 0-3 with edges A→B, A→C, C→A, D→A, D→B, D→D. -/
def gT : Graph Nat Unit :=
  [(0, ⟨23, [(1, ()), (2, ())]⟩), (1, ⟨1, []⟩), (2, ⟨7, [(0, ())]⟩),
    (3, ⟨9, [(0, ()), (1, ()), (3, ())]⟩)]

/-- Concrete well-formed two-vertex graph used by the witnesses. -/
def gW : Graph Nat Nat := [(0, ⟨5, [(1, 7)]⟩), (1, ⟨6, []⟩)]

/-- Concrete vertex map used by the `filter_map` witness: keep only id 0. -/
def vmapW : Idx → Option Nat := fun i => if i = 0 then some 10 else none

/-- Concrete edge map used by the `filter_map` witness. -/
def emapW : (Idx × Vertex Nat Nat) → (Idx × Vertex Nat Nat) → Nat → Option Nat :=
  fun _ _ e => some e

/-- A syntactically different edge map agreeing with `emapW` everywhere. -/
def emapW2 : (Idx × Vertex Nat Nat) → (Idx × Vertex Nat Nat) → Nat → Option Nat :=
  fun _ _ e => some (e + 0)

/-! ## Lemmas about the association-list `HashMap` -/

theorem HM.get_insert_self {α : Type} (k : Idx) (v : α) (m : HM α) :
    HM.get k (HM.insert k v m) = some v := by
  induction m with
  | nil => simp [HM.insert, HM.get]
  | cons p t ih =>
    by_cases h : p.1 = k
    · simp [HM.insert, h, HM.get]
    · simp [HM.insert, h, HM.get, ih]

theorem HM.get_insert_ne {α : Type} {a k : Idx} (v : α) (m : HM α) (h : a ≠ k) :
    HM.get a (HM.insert k v m) = HM.get a m := by
  induction m with
  | nil => simp [HM.insert, HM.get, Ne.symm h]
  | cons p t ih =>
    by_cases hp : p.1 = k
    · subst hp
      simp [HM.insert, HM.get, Ne.symm h]
    · simp only [HM.insert, if_neg hp, HM.get]
      by_cases hpa : p.1 = a
      · simp [hpa]
      · simp [hpa, ih]

theorem HM.get_remove_ne {α : Type} {a k : Idx} (m : HM α) (h : a ≠ k) :
    HM.get a (HM.remove k m) = HM.get a m := by
  induction m with
  | nil => simp [HM.remove]
  | cons p t ih =>
    by_cases hp : p.1 = k
    · subst hp
      simp [HM.remove, HM.get, Ne.symm h]
    · simp only [HM.remove, if_neg hp, HM.get]
      by_cases hpa : p.1 = a
      · simp [hpa]
      · simp [hpa, ih]

theorem HM.get_isSome_iff {α : Type} (k : Idx) (m : HM α) :
    (HM.get k m).isSome = true ↔ k ∈ HM.keys m := by
  induction m with
  | nil => simp [HM.get, HM.keys]
  | cons p t ih =>
    by_cases hp : p.1 = k
    · simp [HM.get, HM.keys, hp]
    · rw [show HM.keys (p :: t) = p.1 :: HM.keys t from rfl]
      simp only [HM.get, if_neg hp, List.mem_cons, ih]
      constructor
      · exact fun hh => Or.inr hh
      · rintro (hh | hh)
        · exact absurd hh.symm hp
        · exact hh

theorem HM.get_eq_none_of_not_mem {α : Type} {k : Idx} {m : HM α}
    (h : k ∉ HM.keys m) : HM.get k m = none := by
  rcases hg : HM.get k m with _ | v
  · rfl
  · exact absurd ((HM.get_isSome_iff k m).1 (by simp [hg])) h

theorem HM.get_remove_self {α : Type} {k : Idx} {m : HM α}
    (h : (HM.keys m).Nodup) : HM.get k (HM.remove k m) = none := by
  induction m with
  | nil => simp [HM.remove, HM.get]
  | cons p t ih =>
    rcases List.nodup_cons.1 h with ⟨hp, ht⟩
    by_cases hpk : p.1 = k
    · subst hpk
      simpa [HM.remove] using HM.get_eq_none_of_not_mem hp
    · simp [HM.remove, hpk, HM.get, ih ht]

theorem HM.mem_of_get_eq_some {α : Type} {k : Idx} {v : α} {m : HM α}
    (h : HM.get k m = some v) : (k, v) ∈ m := by
  induction m with
  | nil => simp [HM.get] at h
  | cons p t ih =>
    by_cases hp : p.1 = k
    · simp only [HM.get, if_pos hp] at h
      subst hp
      cases h
      simp
    · simp only [HM.get, if_neg hp] at h
      exact List.mem_cons_of_mem _ (ih h)

theorem HM.mem_insert_self {α : Type} (k : Idx) (v : α) (m : HM α) :
    (k, v) ∈ HM.insert k v m :=
  HM.mem_of_get_eq_some (HM.get_insert_self k v m)

/-! ## C8: `insert_or_update_vertex` frame conditions -/

/-- C8: `insert_or_update_vertex(new_weight, id)` on a present `id` replaces
the payload while keeping that vertex's outgoing edge map; on an absent `id`
it creates the vertex with an empty edge map; in both cases every other
vertex (payload and edges) is left unchanged. -/
theorem C8_insert_or_update_vertex_frame {V E : Type} (g : Graph V E) (w : V) (i : Idx) :
    (∀ vx, HM.get i g = some vx →
      HM.get i (Graph.insertOrUpdateVertex g w i) = some ⟨w, vx.edges⟩) ∧
    (HM.get i g = none →
      HM.get i (Graph.insertOrUpdateVertex g w i) = some ⟨w, []⟩) ∧
    (∀ j, j ≠ i → HM.get j (Graph.insertOrUpdateVertex g w i) = HM.get j g) := by
  refine ⟨fun vx h => ?_, fun h => ?_, fun j hj => ?_⟩
  · simp [Graph.insertOrUpdateVertex, h, HM.get_insert_self]
  · simp [Graph.insertOrUpdateVertex, h, HM.get_insert_self]
  · rw [Graph.insertOrUpdateVertex, HM.get_insert_ne _ _ hj, HM.get_remove_ne _ hj]

/-- Witness for C8 at a concrete graph: id 0 is present with edge map
`[(1, 7)]`, which survives the payload update; vertex 1 is untouched. -/
theorem C8_witness :
    HM.get 0 (Graph.insertOrUpdateVertex gW 9 0) = some ⟨9, [(1, 7)]⟩ ∧
    HM.get 1 (Graph.insertOrUpdateVertex gW 9 0) = HM.get 1 gW :=
  ⟨(C8_insert_or_update_vertex_frame gW 9 0).1 ⟨5, [(1, 7)]⟩ rfl,
    (C8_insert_or_update_vertex_frame gW 9 0).2.2 1 (by decide)⟩

/-! ## C4: `insert_or_update_edge` error contract -/

/-- C4: `insert_or_update_edge(from, to, w)` returns `None` whenever `to` is
absent (for any `from`) and whenever `from` is absent; when both endpoints
are present it returns `Some` and the edge `(from, to)` afterwards carries
weight `w`.  The Lean translation is total, matching the panic-free source. -/
theorem C4_insert_or_update_edge_contract {V E : Type} (g : Graph V E) (f t : Idx) (w : E) :
    (HM.containsKey t g = false → Graph.insertOrUpdateEdge g f t w = none) ∧
    (HM.containsKey f g = false → Graph.insertOrUpdateEdge g f t w = none) ∧
    (HM.containsKey f g = true → HM.containsKey t g = true →
      ∃ g', Graph.insertOrUpdateEdge g f t w = some g' ∧
        Graph.getEdge g' f t = some w) := by
  refine ⟨fun h => ?_, fun h => ?_, fun hf ht => ?_⟩
  · simp [Graph.insertOrUpdateEdge, h]
  · have hg : HM.get f g = none := by
      cases hfg : HM.get f g with
      | none => rfl
      | some v => simp [HM.containsKey, hfg] at h
    rw [Graph.insertOrUpdateEdge]
    split
    · simp [hg]
    · rfl
  · obtain ⟨vx, hvx⟩ := Option.isSome_iff_exists.1 hf
    refine ⟨HM.insert f ⟨vx.weight, HM.insert t w vx.edges⟩ g, ?_, ?_⟩
    · simp [Graph.insertOrUpdateEdge, ht, hvx]
    · simp [Graph.getEdge, HM.get_insert_self]

/-- Witness for C4 at a concrete graph: absent `to` fails, absent `from`
fails, and a present pair stores the weight. -/
theorem C4_witness :
    Graph.insertOrUpdateEdge gW 0 5 3 = none ∧
    Graph.insertOrUpdateEdge gW 5 0 3 = none ∧
    ∃ g', Graph.insertOrUpdateEdge gW 0 1 3 = some g' ∧
      Graph.getEdge g' 0 1 = some 3 :=
  ⟨(C4_insert_or_update_edge_contract gW 0 5 3).1 (by decide),
    (C4_insert_or_update_edge_contract gW 5 0 3).2.1 (by decide),
    (C4_insert_or_update_edge_contract gW 0 1 3).2.2 (by decide) (by decide)⟩

/-! ## C10: self-loops are supported -/

/-- C10: for a present vertex `v`, `insert_or_update_edge(v, v, w)` succeeds,
afterwards `is_adjacent` of `v` to itself holds, and `remove_edge(v, v)`
returns the stored weight. -/
theorem C10_self_loops {V E : Type} (g : Graph V E) (v : Idx) (w : E)
    (vx : Vertex V E) (h : HM.get v g = some vx) :
    ∃ g', Graph.insertOrUpdateEdge g v v w = some g' ∧
      (∃ vx', HM.get v g' = some vx' ∧ vx'.isAdjacent v = true) ∧
      (Graph.removeEdge g' v v).1 = some w := by
  have hc : HM.containsKey v g = true := by simp [HM.containsKey, h]
  refine ⟨HM.insert v ⟨vx.weight, HM.insert v w vx.edges⟩ g, ?_, ⟨_, HM.get_insert_self .., ?_⟩, ?_⟩
  · simp [Graph.insertOrUpdateEdge, hc, h]
  · refine List.any_eq_true.2 ⟨(v, w), HM.mem_insert_self v w vx.edges, ?_⟩
    simp
  · simp [Graph.removeEdge, HM.get_insert_self]

/-- Witness for C10 at a concrete graph with a self-loop on vertex 1. -/
theorem C10_witness :
    ∃ g', Graph.insertOrUpdateEdge gW 1 1 4 = some g' ∧
      (∃ vx', HM.get 1 g' = some vx' ∧ vx'.isAdjacent 1 = true) ∧
      (Graph.removeEdge g' 1 1).1 = some 4 :=
  C10_self_loops gW 1 4 ⟨6, []⟩ rfl

/-! ## C9: the identifier allocator -/

/-- C9: the successor function stored by `VertexIdx::new`'s compare-and-swap
wraps to zero when the counter reaches `usize::MAX` (rather than failing),
and the identifiers handed out before wraparound are pairwise distinct: the
`k`-th allocation returns `k` for every `k < usize::MAX`, and the allocation
right at the wrap point returns 0 again. -/
theorem C9_vertex_idx_allocator :
    VertexIdx.next (usizeMAX - 1) = 0 ∧
    (∀ k, k < usizeMAX → VertexIdx.idAt k = k) ∧
    (∀ i j, i < usizeMAX → j < usizeMAX →
      VertexIdx.idAt i = VertexIdx.idAt j → i = j) ∧
    VertexIdx.idAt usizeMAX = 0 := by
  have hpos : 1 ≤ usizeMAX := by norm_num [usizeMAX]
  have hsub : usizeMAX - 1 + 1 = usizeMAX := Nat.sub_add_cancel hpos
  have hwrap : VertexIdx.next (usizeMAX - 1) = 0 := by
    rw [VertexIdx.next, hsub, Nat.mod_self]
  have hid : ∀ k, k < usizeMAX → VertexIdx.idAt k = k := by
    intro k
    induction k with
    | zero => intro _; rfl
    | succ n ih =>
      intro hn
      have hn' : n < usizeMAX := Nat.lt_of_succ_lt hn
      rw [VertexIdx.idAt, ih hn', VertexIdx.next, Nat.mod_eq_of_lt hn]
  refine ⟨hwrap, hid, fun i j hi hj hij => ?_, ?_⟩
  · rw [hid i hi, hid j hj] at hij
    exact hij
  · have : usizeMAX = usizeMAX - 1 + 1 := hsub.symm
    rw [this, VertexIdx.idAt, hid _ (by omega), hwrap]

/-- Witness for C9: allocations 5 and 6 return distinct identifiers 5, 6. -/
theorem C9_witness :
    VertexIdx.idAt 5 = 5 ∧ VertexIdx.idAt 6 = 6 ∧ (5 : Nat) ≠ 6 :=
  ⟨(C9_vertex_idx_allocator.2.1) 5 (by norm_num [usizeMAX]),
    (C9_vertex_idx_allocator.2.1) 6 (by norm_num [usizeMAX]), by decide⟩

/-! ## More map lemmas (membership, removal, mapping over values) -/

theorem HM.mem_remove_subset {α : Type} {k : Idx} {p : Idx × α} {m : HM α}
    (h : p ∈ HM.remove k m) : p ∈ m := by
  induction m with
  | nil => simp [HM.remove] at h
  | cons q t ih =>
    by_cases hq : q.1 = k
    · simp only [HM.remove, if_pos hq] at h
      exact List.mem_cons_of_mem _ h
    · simp only [HM.remove, if_neg hq, List.mem_cons] at h
      rcases h with h | h
      · exact h ▸ List.mem_cons_self _ _
      · exact List.mem_cons_of_mem _ (ih h)

theorem HM.get_mapval {α β : Type} (f : α → β) (k : Idx) (m : HM α) :
    HM.get k (m.map (fun p => (p.1, f p.2))) = (HM.get k m).map f := by
  induction m with
  | nil => simp [HM.get]
  | cons p t ih =>
    by_cases hp : p.1 = k
    · simp [HM.get, hp]
    · simp [HM.get, hp, ih]

theorem HM.keys_mapval {α β : Type} (f : α → β) (m : HM α) :
    HM.keys (m.map (fun p => (p.1, f p.2))) = HM.keys m := by
  simp [HM.keys, List.map_map]

theorem HM.mem_keys_of_mem {α : Type} {p : Idx × α} {m : HM α} (h : p ∈ m) :
    p.1 ∈ HM.keys m :=
  List.mem_map.2 ⟨p, h, rfl⟩

theorem Vertex.isAdjacent_eq_false_of_get_none {V E : Type} {vx : Vertex V E}
    {t : Idx} (h : HM.get t vx.edges = none) : vx.isAdjacent t = false := by
  rw [Vertex.isAdjacent]
  by_contra hc
  rw [Bool.not_eq_false, List.any_eq_true] at hc
  obtain ⟨e, he, heq⟩ := hc
  have het : e.1 = t := by simpa using heq
  have hmem : t ∈ HM.keys vx.edges := het ▸ HM.mem_keys_of_mem he
  have hs := (HM.get_isSome_iff t vx.edges).2 hmem
  rw [h] at hs
  simp at hs

/-! ## C3: `remove_vertex` purges all edges to the removed vertex -/

/-- C3: on a present id, `remove_vertex` returns the removed vertex with its
own edge map intact, the id is gone, no remaining vertex is adjacent to it
and no edge targeting it survives; on an absent id it returns `None` and
leaves the graph unchanged. -/
theorem C3_remove_vertex_purges {V E : Type} (g : Graph V E) (v : Idx)
    (hwf : Graph.WF g) :
    (∀ vx, HM.get v g = some vx →
      (Graph.removeVertex g v).1 = some vx ∧
      HM.get v (Graph.removeVertex g v).2 = none ∧
      ∀ p ∈ (Graph.removeVertex g v).2,
        p.2.isAdjacent v = false ∧ HM.get v p.2.edges = none) ∧
    (HM.get v g = none → Graph.removeVertex g v = (none, g)) := by
  obtain ⟨hkeys, hedges, -⟩ := hwf
  constructor
  · intro vx h
    refine ⟨by simp [Graph.removeVertex, h], ?_, ?_⟩
    · simp only [Graph.removeVertex, h]
      have hm := HM.get_mapval
        (fun q : Vertex V E => (⟨q.weight, HM.remove v q.edges⟩ : Vertex V E)) v
        (HM.remove v g)
      rw [HM.get_remove_self hkeys] at hm
      simpa using hm
    · intro p hp
      simp only [Graph.removeVertex, h] at hp
      obtain ⟨q, hq, hqe⟩ := List.mem_map.1 hp
      have hqg : q ∈ g := HM.mem_remove_subset hq
      have hnd : (HM.keys q.2.edges).Nodup := hedges q hqg
      have hget : HM.get v (HM.remove v q.2.edges) = none := HM.get_remove_self hnd
      subst hqe
      exact ⟨Vertex.isAdjacent_eq_false_of_get_none hget, hget⟩
  · intro h
    simp [Graph.removeVertex, h]

/-- Witness for C3: removing vertex 1 of the concrete graph returns it with
its (empty) edge map, strips the edge `0 → 1`, and leaves no adjacency. -/
theorem C3_witness :
    (Graph.removeVertex gW 1).1 = some ⟨6, []⟩ ∧
    HM.get 1 (Graph.removeVertex gW 1).2 = none ∧
    Vertex.isAdjacent ⟨5, ([] : HM Nat)⟩ 1 = false := by
  have T := C3_remove_vertex_purges gW 1 (by decide)
  have h1 := T.1 ⟨6, []⟩ rfl
  exact ⟨h1.1, h1.2.1, (h1.2.2 (0, ⟨5, []⟩) (by decide)).1⟩

/-! ## C7: the `continue 'outer` short-circuit is not observable -/

theorem Graph.edgePassVertexPE_no_from {E NV NE : Type}
    (emap : (Idx × Vertex NV NE) → (Idx × Vertex NV NE) → E → Option NE)
    (f : Idx) :
    ∀ (es : List (Idx × E)) (out : Graph NV NE), HM.get f out = none →
      Graph.edgePassVertexPE emap f es out = out := by
  intro es
  induction es with
  | nil => intro out _; rfl
  | cons e rest ih =>
    intro out h
    simp only [Graph.edgePassVertexPE, h]
    exact ih out h

theorem Graph.edgePassVertex_eq_PE {E NV NE : Type}
    (emap : (Idx × Vertex NV NE) → (Idx × Vertex NV NE) → E → Option NE)
    (f : Idx) :
    ∀ (es : List (Idx × E)) (out : Graph NV NE),
      Graph.edgePassVertex emap f es out = Graph.edgePassVertexPE emap f es out := by
  intro es
  induction es with
  | nil => intro out; rfl
  | cons e rest ih =>
    intro out
    rcases hf : HM.get f out with _ | fv
    · rw [Graph.edgePassVertex, Graph.edgePassVertexPE]
      simp only [hf]
      exact (Graph.edgePassVertexPE_no_from emap f rest out hf).symm
    · rcases ht : HM.get e.1 out with _ | tv
      · simp [Graph.edgePassVertex, Graph.edgePassVertexPE, hf, ht, ih out]
      · rcases he : emap (f, fv) (e.1, tv) e.2 with _ | nw
        · simp [Graph.edgePassVertex, Graph.edgePassVertexPE, hf, ht, he, ih out]
        · simp [Graph.edgePassVertex, Graph.edgePassVertexPE, hf, ht, he, ih]

/-- The two `filter_map` variants agree on every graph and every map pair. -/
theorem Graph.filterMap_eq_filterMapPE {V E NV NE : Type} (g : Graph V E)
    (vmap : Idx → Option NV)
    (emap : (Idx × Vertex NV NE) → (Idx × Vertex NV NE) → E → Option NE) :
    Graph.filterMap g vmap emap = Graph.filterMapPE g vmap emap := by
  rw [Graph.filterMap, Graph.filterMapPE]
  rw [show (fun (out : Graph NV NE) (p : Idx × Vertex V E) =>
        Graph.edgePassVertex emap p.1 p.2.edges out)
      = fun (out : Graph NV NE) (p : Idx × Vertex V E) =>
        Graph.edgePassVertexPE emap p.1 p.2.edges out
    from funext fun out => funext fun p => Graph.edgePassVertex_eq_PE emap p.1 p.2.edges out]

/-- C7 is false: there is no graph and map pair on which the short-circuit
behavior differs from the per-edge variant.  Once phase 1 has run, the edge
pass never adds or removes vertices, so a source vertex found absent stays
absent for its whole edge list; every edge the short-circuit drops would be
dropped by the per-edge test as well. -/
theorem C7_counterexample :
    ¬ ∃ (V E NV NE : Type) (g : Graph V E) (vmap : Idx → Option NV)
        (emap : (Idx × Vertex NV NE) → (Idx × Vertex NV NE) → E → Option NE),
      Graph.filterMap g vmap emap ≠ Graph.filterMapPE g vmap emap := by
  rintro ⟨V, E, NV, NE, g, vmap, emap, hne⟩
  exact hne (Graph.filterMap_eq_filterMapPE g vmap emap)

/-- C7 amended: for every graph and every map pair, the implementation's
short-circuiting `filter_map` produces exactly the same output graph as the
per-edge variant that tests `from` and `to` independently for each edge; no
edge with a surviving `to` is ever dropped beyond those the per-edge
variant drops. -/
theorem C7_short_circuit_equivalent {V E NV NE : Type} (g : Graph V E)
    (vmap : Idx → Option NV)
    (emap : (Idx × Vertex NV NE) → (Idx × Vertex NV NE) → E → Option NE) :
    Graph.filterMap g vmap emap = Graph.filterMapPE g vmap emap :=
  Graph.filterMap_eq_filterMapPE g vmap emap

/-! ## Key/nodup lemmas for the well-formedness invariant -/

theorem HM.mem_keys_insert {α : Type} (a k : Idx) (v : α) (m : HM α) :
    a ∈ HM.keys (HM.insert k v m) ↔ a = k ∨ a ∈ HM.keys m := by
  rw [← HM.get_isSome_iff, ← HM.get_isSome_iff]
  by_cases h : a = k
  · subst h
    simp [HM.get_insert_self]
  · simp [HM.get_insert_ne v m h, h]

theorem HM.keys_cons {α : Type} (p : Idx × α) (t : HM α) :
    HM.keys (p :: t) = p.1 :: HM.keys t := rfl

theorem HM.keys_insert_nodup {α : Type} (k : Idx) (v : α) {m : HM α}
    (h : (HM.keys m).Nodup) : (HM.keys (HM.insert k v m)).Nodup := by
  induction m with
  | nil => simp [HM.insert, HM.keys]
  | cons p t ih =>
    rw [HM.keys_cons] at h
    rcases List.nodup_cons.1 h with ⟨hp, ht⟩
    by_cases hpk : p.1 = k
    · subst hpk
      simp only [HM.insert, if_pos rfl, HM.keys_cons]
      exact List.nodup_cons.2 ⟨hp, ht⟩
    · simp only [HM.insert, if_neg hpk, HM.keys_cons]
      refine List.nodup_cons.2 ⟨?_, ih ht⟩
      intro hmem
      rcases (HM.mem_keys_insert p.1 k v t).1 hmem with h1 | h1
      · exact hpk h1
      · exact hp h1

theorem HM.mem_keys_remove_subset {α : Type} {a k : Idx} {m : HM α}
    (h : a ∈ HM.keys (HM.remove k m)) : a ∈ HM.keys m := by
  obtain ⟨p, hp, hpa⟩ := List.mem_map.1 h
  exact hpa ▸ HM.mem_keys_of_mem (HM.mem_remove_subset hp)

theorem HM.keys_remove_nodup {α : Type} (k : Idx) {m : HM α}
    (h : (HM.keys m).Nodup) : (HM.keys (HM.remove k m)).Nodup := by
  induction m with
  | nil => simp [HM.remove, HM.keys]
  | cons p t ih =>
    rw [HM.keys_cons] at h
    rcases List.nodup_cons.1 h with ⟨hp, ht⟩
    by_cases hpk : p.1 = k
    · simpa [HM.remove, hpk] using ht
    · simp only [HM.remove, if_neg hpk, HM.keys_cons]
      exact List.nodup_cons.2 ⟨fun hmem => hp (HM.mem_keys_remove_subset hmem), ih ht⟩

theorem HM.mem_insert_elim {α : Type} {p : Idx × α} {k : Idx} {v : α} {m : HM α}
    (h : p ∈ HM.insert k v m) : p = (k, v) ∨ p ∈ m := by
  induction m with
  | nil => simpa [HM.insert] using h
  | cons q t ih =>
    by_cases hq : q.1 = k
    · simp only [HM.insert, if_pos hq, List.mem_cons] at h
      rcases h with h | h
      · exact Or.inl h
      · exact Or.inr (List.mem_cons_of_mem _ h)
    · simp only [HM.insert, if_neg hq, List.mem_cons] at h
      rcases h with h | h
      · exact Or.inr (h ▸ List.mem_cons_self _ _)
      · rcases ih h with h1 | h1
        · exact Or.inl h1
        · exact Or.inr (List.mem_cons_of_mem _ h1)

theorem HM.contains_insert_of {α : Type} {a k : Idx} (v : α) {m : HM α}
    (h : HM.containsKey a m = true) :
    HM.containsKey a (HM.insert k v m) = true := by
  by_cases hak : a = k
  · subst hak
    simp [HM.containsKey, HM.get_insert_self]
  · rw [HM.containsKey, HM.get_insert_ne _ _ hak]
    exact h

theorem HM.contains_insert_self {α : Type} (k : Idx) (v : α) (m : HM α) :
    HM.containsKey k (HM.insert k v m) = true := by
  simp [HM.containsKey, HM.get_insert_self]

/-! ## Well-formedness is preserved by every operation -/

theorem Graph.wf_empty {V E : Type} : Graph.WF ([] : Graph V E) := by
  simp [Graph.WF, HM.keys]

theorem Graph.wf_insertRawEdge {V E : Type} {g : Graph V E} {f t : Idx} {w : E}
    {vx : Vertex V E} (hwf : Graph.WF g) (ht : HM.containsKey t g = true)
    (hf : HM.get f g = some vx) :
    Graph.WF (HM.insert f ⟨vx.weight, HM.insert t w vx.edges⟩ g) := by
  obtain ⟨h1, h2, h3⟩ := hwf
  have hvxg : (f, vx) ∈ g := HM.mem_of_get_eq_some hf
  refine ⟨HM.keys_insert_nodup _ _ h1, ?_, ?_⟩
  · intro p hp
    rcases HM.mem_insert_elim hp with rfl | hpg
    · exact HM.keys_insert_nodup _ _ (h2 _ hvxg)
    · exact h2 _ hpg
  · intro p hp e he
    rcases HM.mem_insert_elim hp with rfl | hpg
    · rcases HM.mem_insert_elim he with rfl | heg
      · exact HM.contains_insert_of _ ht
      · exact HM.contains_insert_of _ (h3 _ hvxg _ heg)
    · exact HM.contains_insert_of _ (h3 _ hpg _ he)

theorem Graph.wf_insertVertex {V E : Type} {g : Graph V E} (w : V) (i : Idx)
    (hwf : Graph.WF g) : Graph.WF (Graph.insertVertex g w i) := by
  obtain ⟨h1, h2, h3⟩ := hwf
  refine ⟨HM.keys_insert_nodup _ _ h1, ?_, ?_⟩
  · intro p hp
    rcases HM.mem_insert_elim hp with rfl | hpg
    · simp [HM.keys]
    · exact h2 _ hpg
  · intro p hp e he
    rcases HM.mem_insert_elim hp with rfl | hpg
    · simp at he
    · exact HM.contains_insert_of _ (h3 _ hpg _ he)

theorem Graph.wf_insertOrUpdateVertex {V E : Type} {g : Graph V E} (w : V) (i : Idx)
    (hwf : Graph.WF g) : Graph.WF (Graph.insertOrUpdateVertex g w i) := by
  obtain ⟨h1, h2, h3⟩ := hwf
  have hpres : ∀ a, HM.containsKey a g = true →
      HM.containsKey a (Graph.insertOrUpdateVertex g w i) = true := by
    intro a ha
    by_cases hai : a = i
    · subst hai
      exact HM.contains_insert_self ..
    · rw [Graph.insertOrUpdateVertex, HM.containsKey, HM.get_insert_ne _ _ hai,
        HM.get_remove_ne _ hai]
      exact ha
  refine ⟨HM.keys_insert_nodup _ _ (HM.keys_remove_nodup _ h1), ?_, ?_⟩
  · intro p hp
    rcases HM.mem_insert_elim hp with rfl | hpg
    · rcases hg : HM.get i g with _ | vx
      · simp [hg, HM.keys]
      · simpa [hg] using h2 _ (HM.mem_of_get_eq_some hg)
    · exact h2 _ (HM.mem_remove_subset hpg)
  · intro p hp e he
    rcases HM.mem_insert_elim hp with rfl | hpg
    · rcases hg : HM.get i g with _ | vx
      · simp [hg] at he
      · rw [show ((⟨w, ((HM.get i g).map Vertex.edges).getD []⟩ : Vertex V E)).edges
            = vx.edges from by simp [hg]] at he
        exact hpres _ (h3 _ (HM.mem_of_get_eq_some hg) _ he)
    · exact hpres _ (h3 _ (HM.mem_remove_subset hpg) _ he)

theorem Graph.wf_removeVertex {V E : Type} {g : Graph V E} (i : Idx)
    (hwf : Graph.WF g) : Graph.WF (Graph.removeVertex g i).2 := by
  obtain ⟨h1, h2, h3⟩ := hwf
  rcases hg : HM.get i g with _ | vx
  · simpa [Graph.removeVertex, hg] using ⟨h1, h2, h3⟩
  · simp only [Graph.removeVertex, hg]
    constructor
    · rw [HM.keys_mapval (fun q : Vertex V E => (⟨q.weight, HM.remove i q.edges⟩ : Vertex V E))]
      exact HM.keys_remove_nodup _ h1
    constructor
    · intro p hp
      obtain ⟨q, hq, rfl⟩ := List.mem_map.1 hp
      exact HM.keys_remove_nodup _ (h2 _ (HM.mem_remove_subset hq))
    · intro p hp e he
      obtain ⟨q, hq, rfl⟩ := List.mem_map.1 hp
      have hqg : q ∈ g := HM.mem_remove_subset hq
      have heq : e ∈ q.2.edges := HM.mem_remove_subset he
      have hne : e.1 ≠ i := by
        intro hcontra
        have hmem : e.1 ∈ HM.keys (HM.remove i q.2.edges) := HM.mem_keys_of_mem he
        rw [hcontra] at hmem
        have := (HM.get_isSome_iff i (HM.remove i q.2.edges)).2 hmem
        rw [HM.get_remove_self (h2 _ hqg)] at this
        simp at this
      rw [HM.containsKey,
        show HM.get e.1 (List.map
            (fun p : Idx × Vertex V E =>
              (p.1, (⟨p.2.weight, HM.remove i p.2.edges⟩ : Vertex V E)))
            (HM.remove i g))
          = (HM.get e.1 (HM.remove i g)).map
              (fun q : Vertex V E => (⟨q.weight, HM.remove i q.edges⟩ : Vertex V E))
        from HM.get_mapval
          (fun q : Vertex V E => (⟨q.weight, HM.remove i q.edges⟩ : Vertex V E))
          e.1 (HM.remove i g),
        HM.get_remove_ne _ hne]
      have hpr := h3 _ hqg _ heq
      rw [HM.containsKey] at hpr
      obtain ⟨vv, hvv⟩ := Option.isSome_iff_exists.1 hpr
      rw [hvv]
      rfl

theorem Graph.insertOrUpdateEdge_inv {V E : Type} {g g' : Graph V E} {f t : Idx}
    {w : E} (h : Graph.insertOrUpdateEdge g f t w = some g') :
    ∃ vx, HM.containsKey t g = true ∧ HM.get f g = some vx ∧
      g' = HM.insert f ⟨vx.weight, HM.insert t w vx.edges⟩ g := by
  cases hc : HM.containsKey t g with
  | false => simp [Graph.insertOrUpdateEdge, hc] at h
  | true =>
    rcases hf : HM.get f g with _ | vx
    · simp [Graph.insertOrUpdateEdge, hc, hf] at h
    · refine ⟨vx, rfl, rfl, ?_⟩
      simp only [Graph.insertOrUpdateEdge, hc, if_true, hf, Option.some.injEq] at h
      exact h.symm

theorem Graph.wf_insertOrUpdateEdge {V E : Type} {g g' : Graph V E} {f t : Idx}
    {w : E} (hwf : Graph.WF g) (h : Graph.insertOrUpdateEdge g f t w = some g') :
    Graph.WF g' := by
  obtain ⟨vx, ht, hf, rfl⟩ := Graph.insertOrUpdateEdge_inv h
  exact Graph.wf_insertRawEdge hwf ht hf

theorem Graph.wf_insertOrUpdateEdges {V E : Type} (es : List (Idx × Idx × E)) :
    ∀ {g : Graph V E}, Graph.WF g → Graph.WF (Graph.insertOrUpdateEdges g es) := by
  induction es with
  | nil => intro g hwf; exact hwf
  | cons e rest ih =>
    intro g hwf
    rw [show Graph.insertOrUpdateEdges g (e :: rest)
        = Graph.insertOrUpdateEdges
            (if HM.containsKey e.2.1 g then
              match HM.get e.1 g with
              | none => g
              | some vx => HM.insert e.1 ⟨vx.weight, HM.insert e.2.1 e.2.2 vx.edges⟩ g
            else g) rest from rfl]
    apply ih
    cases hc : HM.containsKey e.2.1 g with
    | false => simpa [hc] using hwf
    | true =>
      rcases hf : HM.get e.1 g with _ | vx
      · simpa [hc, hf] using hwf
      · simpa [hc, hf] using Graph.wf_insertRawEdge hwf hc hf

theorem Graph.wf_removeEdge {V E : Type} {g : Graph V E} (f t : Idx)
    (hwf : Graph.WF g) : Graph.WF (Graph.removeEdge g f t).2 := by
  obtain ⟨h1, h2, h3⟩ := hwf
  rcases hf : HM.get f g with _ | vx
  · simpa [Graph.removeEdge, hf] using ⟨h1, h2, h3⟩
  · simp only [Graph.removeEdge, hf]
    have hvxg : (f, vx) ∈ g := HM.mem_of_get_eq_some hf
    refine ⟨HM.keys_insert_nodup _ _ h1, ?_, ?_⟩
    · intro p hp
      rcases HM.mem_insert_elim hp with rfl | hpg
      · exact HM.keys_remove_nodup _ (h2 _ hvxg)
      · exact h2 _ hpg
    · intro p hp e he
      rcases HM.mem_insert_elim hp with rfl | hpg
      · exact HM.contains_insert_of _ (h3 _ hvxg _ (HM.mem_remove_subset he))
      · exact HM.contains_insert_of _ (h3 _ hpg _ he)

theorem Graph.wf_filterMapVertices {V E NV NE : Type} (g : Graph V E)
    (vmap : Idx → Option NV) : Graph.WF (@Graph.filterMapVertices V E NV NE g vmap) := by
  rw [Graph.filterMapVertices]
  have aux : ∀ (l : List (Idx × Vertex V E)) (acc : Graph NV NE), Graph.WF acc →
      Graph.WF (l.foldl
        (fun out p =>
          match vmap p.1 with
          | some w => Graph.insertOrUpdateVertex out w p.1
          | none => out) acc) := by
    intro l
    induction l with
    | nil => intro acc h; exact h
    | cons p rest ih =>
      intro acc h
      rw [List.foldl_cons]
      apply ih
      rcases hv : vmap p.1 with _ | w
      · simpa [hv] using h
      · simpa [hv] using Graph.wf_insertOrUpdateVertex w p.1 h
  exact aux g [] Graph.wf_empty

theorem Graph.wf_edgePassVertex {E NV NE : Type}
    (emap : (Idx × Vertex NV NE) → (Idx × Vertex NV NE) → E → Option NE)
    (f : Idx) :
    ∀ (es : List (Idx × E)) (out : Graph NV NE), Graph.WF out →
      Graph.WF (Graph.edgePassVertex emap f es out) := by
  intro es
  induction es with
  | nil => intro out h; exact h
  | cons e rest ih =>
    intro out h
    rcases hf : HM.get f out with _ | fv
    · simpa [Graph.edgePassVertex, hf] using h
    · rcases ht : HM.get e.1 out with _ | tv
      · simp only [Graph.edgePassVertex, hf, ht]
        exact ih out h
      · rcases he : emap (f, fv) (e.1, tv) e.2 with _ | nw
        · simp only [Graph.edgePassVertex, hf, ht, he]
          exact ih out h
        · simp only [Graph.edgePassVertex, hf, ht, he]
          apply ih
          rcases hins : Graph.insertOrUpdateEdge out f e.1 nw with _ | out'
          · simpa [hins] using h
          · simpa [hins] using Graph.wf_insertOrUpdateEdge h hins

theorem Graph.wf_filterMap {V E NV NE : Type} (g : Graph V E)
    (vmap : Idx → Option NV)
    (emap : (Idx × Vertex NV NE) → (Idx × Vertex NV NE) → E → Option NE) :
    Graph.WF (Graph.filterMap g vmap emap) := by
  rw [Graph.filterMap]
  have aux : ∀ (l : List (Idx × Vertex V E)) (acc : Graph NV NE), Graph.WF acc →
      Graph.WF (l.foldl (fun out p => Graph.edgePassVertex emap p.1 p.2.edges out) acc) := by
    intro l
    induction l with
    | nil => intro acc h; exact h
    | cons p rest ih =>
      intro acc h
      rw [List.foldl_cons]
      exact ih _ (Graph.wf_edgePassVertex emap p.1 p.2.edges acc h)
  exact aux g _ (Graph.wf_filterMapVertices g vmap)

/-- Every graph reachable through the public API is well-formed. -/
theorem Graph.reaches_wf {V E : Type} {g : Graph V E} (h : Reaches g) :
    Graph.WF g := by
  induction h with
  | empty => exact Graph.wf_empty
  | insVertex w idx hg ih => exact Graph.wf_insertVertex w idx ih
  | insUpdVertex w idx hg ih => exact Graph.wf_insertOrUpdateVertex w idx ih
  | rmVertex idx hg ih => exact Graph.wf_removeVertex idx ih
  | insEdge f t w hg heq ih => exact Graph.wf_insertOrUpdateEdge ih heq
  | insEdges es hg ih => exact Graph.wf_insertOrUpdateEdges es ih
  | rmEdge f t hg ih => exact Graph.wf_removeEdge f t ih
  | fMap vmap emap hg ih => exact Graph.wf_filterMap _ vmap emap

/-! ## C2: no operation ever creates a dangling edge -/

/-- C2: every graph reachable from the empty graph by any sequence of the
public operations satisfies the invariant that every edge's target id is a
key present in the same graph. -/
theorem C2_no_dangling_edges {V E : Type} (g : Graph V E) (h : Reaches g) :
    ∀ p ∈ g, ∀ e ∈ p.2.edges, HM.containsKey e.1 g = true :=
  (Graph.reaches_wf h).2.2

/-- Witness for C2: the concrete graph built by two vertex insertions and
one edge insertion contains its only edge's target. -/
theorem C2_witness : HM.containsKey 1 gW = true :=
  C2_no_dangling_edges gW
    (Reaches.insEdge 0 1 7
      (Reaches.insVertex 6 1 (Reaches.insVertex 5 0 Reaches.empty)) (by decide))
    (0, ⟨5, [(1, 7)]⟩) (by decide) (1, 7) (by decide)

/-! ## C6: `filter_map` id preservation and edge-map relevance -/

theorem optIsSome_map {α β : Type} (f : α → β) (o : Option α) :
    (o.map f).isSome = o.isSome := by
  cases o <;> rfl

theorem Graph.get_insertOrUpdateVertex_self {V E : Type} (g : Graph V E)
    (w : V) (i : Idx) :
    HM.get i (Graph.insertOrUpdateVertex g w i)
      = some ⟨w, ((HM.get i g).map Vertex.edges).getD []⟩ := by
  simp [Graph.insertOrUpdateVertex, HM.get_insert_self]

theorem Graph.get_insertOrUpdateVertex_ne {V E : Type} (g : Graph V E)
    (w : V) {i a : Idx} (h : a ≠ i) :
    HM.get a (Graph.insertOrUpdateVertex g w i) = HM.get a g := by
  simp only [Graph.insertOrUpdateVertex]
  rw [HM.get_insert_ne _ _ h, HM.get_remove_ne _ h]

theorem Graph.contains_insertOrUpdateVertex {V E : Type} (g : Graph V E)
    (w : V) (i a : Idx) :
    (HM.get a (Graph.insertOrUpdateVertex g w i)).isSome = true ↔
      a = i ∨ (HM.get a g).isSome = true := by
  by_cases hai : a = i
  · subst hai
    simp [Graph.get_insertOrUpdateVertex_self]
  · rw [Graph.get_insertOrUpdateVertex_ne _ _ hai]
    simp [hai]

theorem Graph.phase1_contains_aux {V E NV NE : Type} (vmap : Idx → Option NV) :
    ∀ (l : List (Idx × Vertex V E)) (acc : Graph NV NE) (i : Idx),
      (HM.get i (l.foldl
        (fun out p =>
          match vmap p.1 with
          | some w => Graph.insertOrUpdateVertex out w p.1
          | none => out) acc)).isSome = true ↔
      ((∃ p ∈ l, p.1 = i) ∧ (vmap i).isSome = true) ∨
        (HM.get i acc).isSome = true := by
  intro l
  induction l with
  | nil => simp
  | cons p rest ih =>
    intro acc i
    rw [List.foldl_cons, ih]
    rcases hv : vmap p.1 with _ | w
    · by_cases hpi : p.1 = i
      · subst hpi
        simp [hv]
      · constructor
        · rintro (⟨⟨q, hq, hqi⟩, hvi⟩ | h)
          · exact Or.inl ⟨⟨q, List.mem_cons_of_mem _ hq, hqi⟩, hvi⟩
          · exact Or.inr h
        · rintro (⟨⟨q, hq, hqi⟩, hvi⟩ | h)
          · rcases List.mem_cons.1 hq with rfl | hq'
            · exact absurd hqi hpi
            · exact Or.inl ⟨⟨q, hq', hqi⟩, hvi⟩
          · exact Or.inr h
    · rw [Graph.contains_insertOrUpdateVertex]
      by_cases hpi : p.1 = i
      · subst hpi
        simp [hv]
      · constructor
        · rintro (⟨⟨q, hq, hqi⟩, hvi⟩ | hip | h)
          · exact Or.inl ⟨⟨q, List.mem_cons_of_mem _ hq, hqi⟩, hvi⟩
          · exact absurd hip.symm hpi
          · exact Or.inr h
        · rintro (⟨⟨q, hq, hqi⟩, hvi⟩ | h)
          · rcases List.mem_cons.1 hq with rfl | hq'
            · exact absurd hqi hpi
            · exact Or.inl ⟨⟨q, hq', hqi⟩, hvi⟩
          · exact Or.inr (Or.inr h)

theorem Graph.phase1_weight_aux {V E NV NE : Type} (vmap : Idx → Option NV) :
    ∀ (l : List (Idx × Vertex V E)) (acc : Graph NV NE),
      (∀ i vx, HM.get i acc = some vx → vmap i = some vx.weight) →
      ∀ i vx, HM.get i (l.foldl
        (fun out p =>
          match vmap p.1 with
          | some w => Graph.insertOrUpdateVertex out w p.1
          | none => out) acc) = some vx → vmap i = some vx.weight := by
  intro l
  induction l with
  | nil => intro acc h; exact h
  | cons p rest ih =>
    intro acc h
    rw [List.foldl_cons]
    apply ih
    rcases hv : vmap p.1 with _ | w
    · exact h
    · intro i vx hget
      by_cases hpi : i = p.1
      · subst hpi
        rw [Graph.get_insertOrUpdateVertex_self] at hget
        cases hget
        exact hv
      · rw [Graph.get_insertOrUpdateVertex_ne _ _ hpi] at hget
        exact h i vx hget

theorem Graph.insertOrUpdateEdge_weights {V E : Type} {g g' : Graph V E}
    {f t : Idx} {w : E} (h : Graph.insertOrUpdateEdge g f t w = some g') (k : Idx) :
    (HM.get k g').map Vertex.weight = (HM.get k g).map Vertex.weight := by
  obtain ⟨vx, ht, hf, rfl⟩ := Graph.insertOrUpdateEdge_inv h
  by_cases hkf : k = f
  · subst hkf
    rw [HM.get_insert_self, hf]
    rfl
  · rw [HM.get_insert_ne _ _ hkf]

theorem Graph.edgePassVertex_weights {E NV NE : Type}
    (emap : (Idx × Vertex NV NE) → (Idx × Vertex NV NE) → E → Option NE)
    (f : Idx) :
    ∀ (es : List (Idx × E)) (out : Graph NV NE) (k : Idx),
      (HM.get k (Graph.edgePassVertex emap f es out)).map Vertex.weight
        = (HM.get k out).map Vertex.weight := by
  intro es
  induction es with
  | nil => intro out k; rfl
  | cons e rest ih =>
    intro out k
    rcases hf : HM.get f out with _ | fv
    · simp [Graph.edgePassVertex, hf]
    · rcases ht : HM.get e.1 out with _ | tv
      · simp only [Graph.edgePassVertex, hf, ht]
        exact ih out k
      · rcases he : emap (f, fv) (e.1, tv) e.2 with _ | nw
        · simp only [Graph.edgePassVertex, hf, ht, he]
          exact ih out k
        · simp only [Graph.edgePassVertex, hf, ht, he]
          rw [ih]
          rcases hins : Graph.insertOrUpdateEdge out f e.1 nw with _ | out'
          · simp [hins]
          · simpa [hins] using Graph.insertOrUpdateEdge_weights hins k

theorem Graph.filterMap_weights {V E NV NE : Type} (g : Graph V E)
    (vmap : Idx → Option NV)
    (emap : (Idx × Vertex NV NE) → (Idx × Vertex NV NE) → E → Option NE) (k : Idx) :
    (HM.get k (Graph.filterMap g vmap emap)).map Vertex.weight
      = (HM.get k (@Graph.filterMapVertices V E NV NE g vmap)).map Vertex.weight := by
  rw [Graph.filterMap]
  have aux : ∀ (l : List (Idx × Vertex V E)) (acc : Graph NV NE),
      (HM.get k (l.foldl
        (fun out p => Graph.edgePassVertex emap p.1 p.2.edges out) acc)).map Vertex.weight
      = (HM.get k acc).map Vertex.weight := by
    intro l
    induction l with
    | nil => intro acc; rfl
    | cons p rest ih =>
      intro acc
      rw [List.foldl_cons, ih, Graph.edgePassVertex_weights]
  exact aux g _

theorem Graph.edgePassVertex_congr {E NV NE : Type}
    (emap emap2 : (Idx × Vertex NV NE) → (Idx × Vertex NV NE) → E → Option NE)
    (out0 : Graph NV NE)
    (hagree : ∀ a b e, (HM.get a.1 out0).isSome = true →
      (HM.get b.1 out0).isSome = true → emap a b e = emap2 a b e)
    (f : Idx) :
    ∀ (es : List (Idx × E)) (out : Graph NV NE),
      (∀ k, (HM.get k out).isSome = (HM.get k out0).isSome) →
      Graph.edgePassVertex emap f es out = Graph.edgePassVertex emap2 f es out := by
  intro es
  induction es with
  | nil => intro out _; rfl
  | cons e rest ih =>
    intro out hpres
    rcases hf : HM.get f out with _ | fv
    · simp [Graph.edgePassVertex, hf]
    · rcases ht : HM.get e.1 out with _ | tv
      · simp only [Graph.edgePassVertex, hf, ht]
        exact ih out hpres
      · have hfP : (HM.get f out0).isSome = true := by
          rw [← hpres f, hf]; rfl
        have htP : (HM.get e.1 out0).isSome = true := by
          rw [← hpres e.1, ht]; rfl
        have hem : emap (f, fv) (e.1, tv) e.2 = emap2 (f, fv) (e.1, tv) e.2 :=
          hagree (f, fv) (e.1, tv) e.2 hfP htP
        rcases he : emap2 (f, fv) (e.1, tv) e.2 with _ | nw
        · rw [he] at hem
          simp only [Graph.edgePassVertex, hf, ht, hem, he]
          exact ih out hpres
        · rw [he] at hem
          simp only [Graph.edgePassVertex, hf, ht, hem, he]
          apply ih
          intro k
          rcases hins : Graph.insertOrUpdateEdge out f e.1 nw with _ | out'
          · simpa [hins] using hpres k
          · have hw := Graph.insertOrUpdateEdge_weights hins k
            have : (HM.get k out').isSome = (HM.get k out).isSome := by
              rw [← optIsSome_map Vertex.weight (HM.get k out'), hw,
                optIsSome_map]
            simp only [hins, Option.getD_some]
            rw [this, hpres k]

theorem Graph.filterMap_congr {V E NV NE : Type} (g : Graph V E)
    (vmap : Idx → Option NV)
    (emap emap2 : (Idx × Vertex NV NE) → (Idx × Vertex NV NE) → E → Option NE)
    (hagree : ∀ a b e,
      (HM.get a.1 (@Graph.filterMapVertices V E NV NE g vmap)).isSome = true →
      (HM.get b.1 (@Graph.filterMapVertices V E NV NE g vmap)).isSome = true →
      emap a b e = emap2 a b e) :
    Graph.filterMap g vmap emap = Graph.filterMap g vmap emap2 := by
  rw [Graph.filterMap, Graph.filterMap]
  have aux : ∀ (l : List (Idx × Vertex V E)) (acc : Graph NV NE),
      (∀ k, (HM.get k acc).isSome
        = (HM.get k (@Graph.filterMapVertices V E NV NE g vmap)).isSome) →
      l.foldl (fun out p => Graph.edgePassVertex emap p.1 p.2.edges out) acc
        = l.foldl (fun out p => Graph.edgePassVertex emap2 p.1 p.2.edges out) acc := by
    intro l
    induction l with
    | nil => intro acc _; rfl
    | cons p rest ih =>
      intro acc hpres
      rw [List.foldl_cons, List.foldl_cons]
      rw [Graph.edgePassVertex_congr emap emap2 _ hagree p.1 p.2.edges acc hpres]
      apply ih
      intro k
      rw [← optIsSome_map Vertex.weight
        (HM.get k (Graph.edgePassVertex emap2 p.1 p.2.edges acc))]
      rw [Graph.edgePassVertex_weights, optIsSome_map]
      exact hpres k
  exact aux g _ (fun k => rfl)

/-- C6: every input vertex id on which `vertex_map` returns a value is
present in `filter_map`'s output under the same id with that payload, and
only such ids are present; `edge_map` only matters through its values on
argument pairs whose ids both survived phase 1 (it is never consulted for
an edge with a dropped endpoint); purity of the embedding reflects that the
input graph is not mutated. -/
theorem C6_filter_map_id_preservation {V E NV NE : Type} (g : Graph V E)
    (vmap : Idx → Option NV)
    (emap emap2 : (Idx × Vertex NV NE) → (Idx × Vertex NV NE) → E → Option NE) :
    (∀ i, i ∈ HM.keys g → ∀ w, vmap i = some w →
      ∃ vx, HM.get i (Graph.filterMap g vmap emap) = some vx ∧ vx.weight = w) ∧
    (∀ i, (HM.get i (Graph.filterMap g vmap emap)).isSome = true →
      i ∈ HM.keys g ∧ (vmap i).isSome = true) ∧
    ((∀ a b e,
        (HM.get a.1 (@Graph.filterMapVertices V E NV NE g vmap)).isSome = true →
        (HM.get b.1 (@Graph.filterMapVertices V E NV NE g vmap)).isSome = true →
        emap a b e = emap2 a b e) →
      Graph.filterMap g vmap emap = Graph.filterMap g vmap emap2) := by
  refine ⟨?_, ?_, Graph.filterMap_congr g vmap emap emap2⟩
  · intro i hi w hw
    have hc : (HM.get i (@Graph.filterMapVertices V E NV NE g vmap)).isSome = true := by
      rw [Graph.filterMapVertices, Graph.phase1_contains_aux]
      refine Or.inl ⟨?_, by rw [hw]; rfl⟩
      obtain ⟨p, hp, hpi⟩ := List.mem_map.1 hi
      exact ⟨p, hp, hpi⟩
    obtain ⟨vx0, hvx0⟩ := Option.isSome_iff_exists.1 hc
    have hweight : vmap i = some vx0.weight := by
      rw [Graph.filterMapVertices] at hvx0
      exact Graph.phase1_weight_aux vmap g [] (by intro i vx h; cases h) i vx0 hvx0
    have hmap : (HM.get i (Graph.filterMap g vmap emap)).map Vertex.weight = some w := by
      rw [Graph.filterMap_weights, hvx0]
      rw [hw] at hweight
      cases hweight
      rfl
    obtain ⟨vx, hvx, hvw⟩ := Option.map_eq_some'.1 hmap
    exact ⟨vx, hvx, hvw⟩
  · intro i hi
    have hc : (HM.get i (@Graph.filterMapVertices V E NV NE g vmap)).isSome = true := by
      rw [← optIsSome_map Vertex.weight, ← Graph.filterMap_weights g vmap emap,
        optIsSome_map]
      exact hi
    rw [Graph.filterMapVertices, Graph.phase1_contains_aux] at hc
    rcases hc with ⟨⟨p, hp, hpi⟩, hvi⟩ | h
    · exact ⟨hpi ▸ HM.mem_keys_of_mem hp, hvi⟩
    · simp [HM.get] at h

/-- Witness for C6 at the concrete graph: id 0 survives with payload 10,
is present in the output (and its presence implies membership plus a
`vertex_map` hit), and the two agreeing edge maps give equal outputs. -/
theorem C6_witness :
    (∃ vx, HM.get 0 (Graph.filterMap gW vmapW emapW) = some vx ∧ vx.weight = 10) ∧
    (0 ∈ HM.keys gW ∧ (vmapW 0).isSome = true) ∧
    Graph.filterMap gW vmapW emapW = Graph.filterMap gW vmapW emapW2 := by
  have T := C6_filter_map_id_preservation gW vmapW emapW emapW2
  exact ⟨T.1 0 (by decide) 10 (by decide), T.2.1 0 (by decide),
    T.2.2 (fun a b e _ _ => by simp [emapW, emapW2])⟩

/-! ## BFS structural lemmas: replacing a vertex's metadata in place -/

theorem HM.keys_insert_found {α : Type} {k : Idx} {m : HM α} {vx : α}
    (h : HM.get k m = some vx) (v : α) :
    HM.keys (HM.insert k v m) = HM.keys m := by
  induction m with
  | nil => simp [HM.get] at h
  | cons p t ih =>
    by_cases hp : p.1 = k
    · subst hp
      simp [HM.insert, HM.keys_cons]
    · simp only [HM.get, if_neg hp] at h
      simp only [HM.insert, if_neg hp, HM.keys_cons, ih h]

theorem Graph.wf_replace {V E : Type} {g : Graph V E} {n : Idx}
    {vx vx' : Vertex V E} (hwf : Graph.WF g) (hget : HM.get n g = some vx)
    (hedges : vx'.edges = vx.edges) : Graph.WF (HM.insert n vx' g) := by
  obtain ⟨h1, h2, h3⟩ := hwf
  have hkeys := HM.keys_insert_found hget vx'
  refine ⟨hkeys ▸ h1, ?_, ?_⟩
  · intro p hp
    rcases HM.mem_insert_elim hp with rfl | hpg
    · rw [show (n, vx').2.edges = vx.edges from hedges]
      exact h2 _ (HM.mem_of_get_eq_some hget)
    · exact h2 _ hpg
  · intro p hp e he
    have hpres : ∀ a, HM.containsKey a g = true →
        HM.containsKey a (HM.insert n vx' g) = true := by
      intro a ha
      rw [HM.containsKey] at ha ⊢
      rw [HM.get_isSome_iff] at ha ⊢
      rw [hkeys]
      exact ha
    rcases HM.mem_insert_elim hp with rfl | hpg
    · rw [show (n, vx').2.edges = vx.edges from hedges] at he
      exact hpres _ (h3 _ (HM.mem_of_get_eq_some hget) _ he)
    · exact hpres _ (h3 _ hpg _ he)

theorem HM.get_insert_found_mapedges {V E : Type} {g : Graph V E} {n : Idx}
    {vx vx' : Vertex V E} (hget : HM.get n g = some vx)
    (hedges : vx'.edges = vx.edges) (k : Idx) :
    (HM.get k (HM.insert n vx' g)).map Vertex.edges
      = (HM.get k g).map Vertex.edges := by
  by_cases hkn : k = n
  · subst hkn
    rw [HM.get_insert_self, hget]
    simp [hedges]
  · rw [HM.get_insert_ne _ _ hkn]

theorem countWhite_insert_found {V E : Type} {g : BGraph V E} {n : Idx}
    {vx : Vertex (EnhancedWeight V) E} (vx' : Vertex (EnhancedWeight V) E)
    (h : HM.get n g = some vx) :
    countWhite (HM.insert n vx' g)
        + (if vx.weight.color = Color.White then 1 else 0)
      = countWhite g + (if vx'.weight.color = Color.White then 1 else 0) := by
  induction g with
  | nil => simp [HM.get] at h
  | cons p t ih =>
    by_cases hp : p.1 = n
    · simp only [HM.get, if_pos hp] at h
      cases h
      simp only [HM.insert, if_pos hp, countWhite]
      omega
    · simp only [HM.get, if_neg hp] at h
      simp only [HM.insert, if_neg hp, countWhite]
      have := ih h
      omega

theorem countWhite_le_length {V E : Type} (g : BGraph V E) :
    countWhite g ≤ g.length := by
  induction g with
  | nil => simp [countWhite]
  | cons p t ih =>
    simp only [countWhite, List.length_cons]
    split <;> omega

theorem countWhite_lt_length {V E : Type} {g : BGraph V E} {k : Idx}
    {vx : Vertex (EnhancedWeight V) E} (h : HM.get k g = some vx)
    (hc : vx.weight.color ≠ Color.White) : countWhite g < g.length := by
  induction g with
  | nil => simp [HM.get] at h
  | cons p t ih =>
    by_cases hp : p.1 = k
    · simp only [HM.get, if_pos hp] at h
      cases h
      simp only [countWhite, List.length_cons, if_neg hc]
      have := countWhite_le_length t
      omega
    · simp only [HM.get, if_neg hp] at h
      have := ih h
      simp only [countWhite, List.length_cons]
      split <;> omega

theorem countWhite_add_countNW {V E : Type} (g : BGraph V E) :
    countWhite g + countNW g = g.length := by
  induction g with
  | nil => rfl
  | cons p t ih =>
    simp only [countWhite, countNW, List.length_cons]
    split <;> omega

/-! ## Totality of the BFS loop on well-formed graphs -/

theorem discover_total {V E : Type} (d : Nat) (cur : Idx) :
    ∀ (ns : List Idx) (g : BGraph V E) (q : List Idx),
      Graph.WF g →
      (∀ n ∈ ns, (HM.get n g).isSome = true) →
      (∀ v ∈ q, (HM.get v g).isSome = true) →
      ∃ g' q', discoverNeighbors d cur ns g q = some (g', q') ∧
        Graph.WF g' ∧
        (∀ k, (HM.get k g').map Vertex.edges = (HM.get k g).map Vertex.edges) ∧
        (∀ v ∈ q', (HM.get v g').isSome = true) ∧
        2 * countWhite g' + q'.length ≤ 2 * countWhite g + q.length := by
  intro ns
  induction ns with
  | nil =>
    intro g q hwf _ hq
    exact ⟨g, q, rfl, hwf, fun k => rfl, hq, le_refl _⟩
  | cons n rest ih =>
    intro g q hwf hns hq
    obtain ⟨vx, hvx⟩ := Option.isSome_iff_exists.1 (hns n (List.mem_cons_self n rest))
    by_cases hcol : vx.weight.color = Color.White
    · set vx' : Vertex (EnhancedWeight V) E :=
        ⟨⟨some cur, (d + 1) % 2 ^ 32, Color.Grey, vx.weight.weight⟩, vx.edges⟩ with hvx'
      have hwf1 : Graph.WF (HM.insert n vx' g) := Graph.wf_replace hwf hvx rfl
      have hagree1 : ∀ k, (HM.get k (HM.insert n vx' g)).map Vertex.edges
          = (HM.get k g).map Vertex.edges :=
        HM.get_insert_found_mapedges hvx rfl
      have hpres1 : ∀ v, (HM.get v g).isSome = true →
          (HM.get v (HM.insert n vx' g)).isSome = true := by
        intro v hv
        rw [← optIsSome_map Vertex.edges, hagree1 v, optIsSome_map]
        exact hv
      have hcount : countWhite (HM.insert n vx' g) + 1 = countWhite g := by
        have h2 := countWhite_insert_found vx' hvx
        simp only [if_pos hcol] at h2
        simpa using h2
      obtain ⟨g', q', hrun, hwf', hagree', hq', hmeas⟩ :=
        ih (HM.insert n vx' g) (q ++ [n]) hwf1
          (fun m hm => hpres1 m (hns m (List.mem_cons_of_mem _ hm)))
          (by
            intro v hv
            rcases List.mem_append.1 hv with hv | hv
            · exact hpres1 v (hq v hv)
            · rw [List.mem_singleton] at hv
              subst hv
              exact hpres1 v (by rw [hvx]; rfl))
      refine ⟨g', q', ?_, hwf', ?_, hq', ?_⟩
      · rw [discoverNeighbors, hvx]
        simp only [if_pos hcol]
        exact hrun
      · intro k
        rw [hagree' k, hagree1 k]
      · have hlen : (q ++ [n]).length = q.length + 1 := by simp
        rw [hlen] at hmeas
        omega
    · obtain ⟨g', q', hrun, hwf', hagree', hq', hmeas⟩ := ih g q hwf
        (fun m hm => hns m (List.mem_cons_of_mem _ hm)) hq
      refine ⟨g', q', ?_, hwf', hagree', hq', hmeas⟩
      rw [discoverNeighbors, hvx]
      simp only [if_neg hcol]
      exact hrun

theorem bfsLoop_total {V E : Type} :
    ∀ (fuel : Nat) (g : BGraph V E) (q : List Idx),
      Graph.WF g →
      (∀ v ∈ q, (HM.get v g).isSome = true) →
      2 * countWhite g + q.length < fuel →
      ∃ g', bfsLoop fuel g q = some g' := by
  intro fuel
  induction fuel with
  | zero => intro g q _ _ h; omega
  | succ fuel ih =>
    intro g q hwf hq hmeas
    match q with
    | [] => exact ⟨g, rfl⟩
    | cur :: rest =>
      obtain ⟨vx, hvx⟩ := Option.isSome_iff_exists.1 (hq cur (List.mem_cons_self cur rest))
      have hns : ∀ n ∈ HM.keys vx.edges, (HM.get n g).isSome = true := by
        intro n hn
        obtain ⟨e, he, hei⟩ := List.mem_map.1 hn
        have := hwf.2.2 (cur, vx) (HM.mem_of_get_eq_some hvx) e he
        rw [HM.containsKey] at this
        exact hei ▸ this
      obtain ⟨g1, q1, hrun, hwf1, hagree1, hq1, hmeas1⟩ :=
        discover_total vx.weight.distance cur (HM.keys vx.edges) g rest hwf hns
          (fun v hv => hq v (List.mem_cons_of_mem _ hv))
      have hcur1 : (HM.get cur g1).isSome = true := by
        rw [← optIsSome_map Vertex.edges, hagree1 cur, optIsSome_map, hvx]
        rfl
      obtain ⟨vx1, hvx1⟩ := Option.isSome_iff_exists.1 hcur1
      set vxB : Vertex (EnhancedWeight V) E :=
        ⟨⟨vx1.weight.parent, vx1.weight.distance, Color.Black, vx1.weight.weight⟩,
          vx1.edges⟩ with hvxB
      have hwf2 : Graph.WF (HM.insert cur vxB g1) := Graph.wf_replace hwf1 hvx1 rfl
      have hcount2 : countWhite (HM.insert cur vxB g1) ≤ countWhite g1 := by
        have hthis := countWhite_insert_found vxB hvx1
        have hBW : (if vxB.weight.color = Color.White then 1 else 0) = 0 := rfl
        rw [hBW] at hthis
        split at hthis <;> omega
      have hpres2 : ∀ v, (HM.get v g1).isSome = true →
          (HM.get v (HM.insert cur vxB g1)).isSome = true := by
        intro v hv
        rw [← optIsSome_map Vertex.edges,
          HM.get_insert_found_mapedges hvx1 (show vxB.edges = vx1.edges from rfl),
          optIsSome_map]
        exact hv
      obtain ⟨g', hg'⟩ := ih (HM.insert cur vxB g1) q1 hwf2
        (fun v hv => hpres2 v (hq1 v hv))
        (by
          simp only [List.length_cons] at hmeas
          omega)
      refine ⟨g', ?_⟩
      simp only [bfsLoop, hvx, hrun, hvx1]
      exact hg'

/-! ## Characterizing the decoration pass -/

theorem bfsInit_contains {V E : Type} (g : Graph V E) (s i : Idx) :
    (HM.get i (bfsInit g s)).isSome = true ↔ (HM.get i g).isSome = true := by
  rw [bfsInit, ← optIsSome_map Vertex.weight,
    Graph.filterMap_weights g (bfsVmap g s) (fun _ _ e => some e) i, optIsSome_map,
    Graph.filterMapVertices, Graph.phase1_contains_aux]
  have hv : (bfsVmap g s i).isSome = (HM.get i g).isSome := by
    rw [bfsVmap]
    exact optIsSome_map _ _
  constructor
  · rintro (⟨⟨p, hp, hpi⟩, hvi⟩ | h)
    · rw [hv] at hvi
      exact hvi
    · simp [HM.get] at h
  · intro h
    refine Or.inl ⟨?_, hv ▸ h⟩
    obtain ⟨p, hp, hpi⟩ := List.mem_map.1 ((HM.get_isSome_iff i g).1 h)
    exact ⟨p, hp, hpi⟩

theorem bfsInit_get_weight {V E : Type} {g : Graph V E} {s i : Idx}
    {vx : Vertex (EnhancedWeight V) E} (h : HM.get i (bfsInit g s) = some vx) :
    bfsVmap g s i = some vx.weight := by
  have hmap := Graph.filterMap_weights g (bfsVmap g s) (fun _ _ e => some e) i
  rw [← bfsInit, h] at hmap
  obtain ⟨vx0, hvx0, hw0⟩ := Option.map_eq_some'.1 hmap.symm
  rw [Graph.filterMapVertices] at hvx0
  have := Graph.phase1_weight_aux (bfsVmap g s) g [] (by intro i vx hx; cases hx) i vx0 hvx0
  rw [this, hw0]

theorem bfsInit_source_fields {V E : Type} {g : Graph V E} {s : Idx}
    {vx : Vertex (EnhancedWeight V) E} (h : HM.get s (bfsInit g s) = some vx) :
    vx.weight.color = Color.Grey ∧ vx.weight.distance = 0 ∧
      vx.weight.parent = none := by
  have hv := bfsInit_get_weight h
  rw [bfsVmap] at hv
  rcases hg : HM.get s g with _ | w0
  · rw [hg] at hv
    cases hv
  · rw [hg] at hv
    simp only [Option.map_some', if_pos rfl, Option.some.injEq] at hv
    rw [← hv]
    exact ⟨rfl, rfl, rfl⟩

theorem bfsInit_nonsource_fields {V E : Type} {g : Graph V E} {s i : Idx}
    {vx : Vertex (EnhancedWeight V) E} (hne : i ≠ s)
    (h : HM.get i (bfsInit g s) = some vx) :
    vx.weight.color = Color.White ∧ vx.weight.distance = u32MAX ∧
      vx.weight.parent = none := by
  have hv := bfsInit_get_weight h
  rw [bfsVmap] at hv
  rcases hg : HM.get i g with _ | w0
  · rw [hg] at hv
    cases hv
  · rw [hg] at hv
    simp only [Option.map_some', if_neg hne, Option.some.injEq] at hv
    rw [← hv]
    exact ⟨rfl, rfl, rfl⟩

/-! ## C5: BFS returns `None` exactly when the source is absent -/

/-- C5: `breadth_first_search(graph, source)` returns `None` if and only if
`source` is not a vertex of `graph`.  In the `None` case nothing but `None`
is produced, and the Lean translation is total: absence is never signalled
by a panic. -/
theorem C5_bfs_none_iff_source_absent {V E : Type} (g : Graph V E) (s : Idx) :
    breadth_first_search g s = none ↔ HM.containsKey s g = false := by
  cases hc : HM.containsKey s (bfsInit g s) with
  | false =>
    have hg : HM.containsKey s g = false := by
      cases hcg : HM.containsKey s g with
      | false => rfl
      | true =>
        rw [HM.containsKey] at hc hcg
        rw [(bfsInit_contains g s s).2 hcg] at hc
        cases hc
    simp only [breadth_first_search, hc]
    simp [hg]
  | true =>
    have hwfI : Graph.WF (bfsInit g s) := by
      rw [bfsInit]
      exact Graph.wf_filterMap g (bfsVmap g s) (fun _ _ e => some e)
    rw [HM.containsKey] at hc
    obtain ⟨vxs, hvxs⟩ := Option.isSome_iff_exists.1 hc
    have hGrey := (bfsInit_source_fields hvxs).1
    have hlt : countWhite (bfsInit g s) < (bfsInit g s).length :=
      countWhite_lt_length hvxs (by rw [hGrey]; intro hcontra; cases hcontra)
    obtain ⟨g', hg'⟩ := bfsLoop_total (2 * (bfsInit g s).length + 1) (bfsInit g s)
      [s] hwfI
      (by
        intro v hv
        rw [List.mem_singleton] at hv
        subst hv
        exact hc)
      (by
        simp only [List.length_singleton]
        omega)
    have hcg : HM.containsKey s g = true := by
      rw [HM.containsKey]
      exact (bfsInit_contains g s s).1 hc
    simp only [breadth_first_search]
    rw [show HM.containsKey s (bfsInit g s) = true from hc]
    simp only [if_true, hg', hcg]
    constructor
    · intro h
      cases h
    · intro h
      cases h

/-! ## Small lemmas feeding the BFS invariant proof -/

theorem countNW_insert_found {V E : Type} {g : BGraph V E} {n : Idx}
    {vx : Vertex (EnhancedWeight V) E} (vx' : Vertex (EnhancedWeight V) E)
    (h : HM.get n g = some vx) :
    countNW (HM.insert n vx' g)
        + (if vx.weight.color = Color.White then 0 else 1)
      = countNW g + (if vx'.weight.color = Color.White then 0 else 1) := by
  induction g with
  | nil => simp [HM.get] at h
  | cons p t ih =>
    by_cases hp : p.1 = n
    · simp only [HM.get, if_pos hp] at h
      cases h
      simp only [HM.insert, if_pos hp, countNW]
      omega
    · simp only [HM.get, if_neg hp] at h
      simp only [HM.insert, if_neg hp, countNW]
      have := ih h
      omega

theorem countNW_pos {V E : Type} {g : BGraph V E} {k : Idx}
    {vx : Vertex (EnhancedWeight V) E} (h : HM.get k g = some vx)
    (hc : vx.weight.color ≠ Color.White) : 1 ≤ countNW g := by
  induction g with
  | nil => simp [HM.get] at h
  | cons p t ih =>
    by_cases hp : p.1 = k
    · simp only [HM.get, if_pos hp] at h
      cases h
      simp only [countNW, if_neg hc]
      omega
    · simp only [HM.get, if_neg hp] at h
      have := ih h
      simp only [countNW]
      split <;> omega

theorem HM.length_insert_found {α : Type} {k : Idx} {m : HM α} {vx : α}
    (h : HM.get k m = some vx) (v : α) :
    (HM.insert k v m).length = m.length := by
  have h1 : (HM.keys (HM.insert k v m)).length = (HM.keys m).length :=
    congrArg List.length (HM.keys_insert_found h v)
  simpa [HM.keys] using h1

theorem HM.insert_get_self {α : Type} {k : Idx} {m : HM α} {v : α}
    (h : HM.get k m = some v) : HM.insert k v m = m := by
  induction m with
  | nil => simp [HM.get] at h
  | cons p t ih =>
    by_cases hp : p.1 = k
    · simp only [HM.get, if_pos hp] at h
      cases h
      simp only [HM.insert, if_pos hp]
      rw [← hp]
    · simp only [HM.get, if_neg hp] at h
      simp only [HM.insert, if_neg hp, ih h]

theorem HM.insert_insert_self {α : Type} (k : Idx) (v v' : α) (m : HM α) :
    HM.insert k v (HM.insert k v' m) = HM.insert k v m := by
  induction m with
  | nil => simp [HM.insert]
  | cons p t ih =>
    by_cases hp : p.1 = k
    · simp [HM.insert, hp]
    · simp [HM.insert, hp, ih]

theorem HM.remove_not_mem {α : Type} {k : Idx} {m : HM α}
    (h : k ∉ HM.keys m) : HM.remove k m = m := by
  induction m with
  | nil => rfl
  | cons p t ih =>
    rw [HM.keys_cons, List.mem_cons] at h
    push_neg at h
    simp only [HM.remove, if_neg (Ne.symm h.1)]
    rw [ih h.2]

theorem HM.insert_not_mem {α : Type} {k : Idx} {m : HM α} (v : α)
    (h : k ∉ HM.keys m) : HM.insert k v m = m ++ [(k, v)] := by
  induction m with
  | nil => rfl
  | cons p t ih =>
    rw [HM.keys_cons, List.mem_cons] at h
    push_neg at h
    simp only [HM.insert, if_neg (Ne.symm h.1), List.cons_append]
    rw [ih h.2]

theorem HM.get_of_mem_nodup {α : Type} {p : Idx × α} {m : HM α}
    (hnd : (HM.keys m).Nodup) (h : p ∈ m) : HM.get p.1 m = some p.2 := by
  induction m with
  | nil => simp at h
  | cons q t ih =>
    rw [HM.keys_cons] at hnd
    rcases List.nodup_cons.1 hnd with ⟨hq, ht⟩
    rcases List.mem_cons.1 h with rfl | hmem
    · simp [HM.get]
    · have hne : q.1 ≠ p.1 := by
        intro hcontra
        exact hq (hcontra ▸ HM.mem_keys_of_mem hmem)
      simp only [HM.get, if_neg hne]
      exact ih ht hmem

theorem HM.get_mapidx {α β : Type} (h : Idx → α → β) (k : Idx) (m : HM α) :
    HM.get k (m.map (fun p => (p.1, h p.1 p.2))) = (HM.get k m).map (h k) := by
  induction m with
  | nil => rfl
  | cons p t ih =>
    by_cases hp : p.1 = k
    · subst hp
      simp [HM.get]
    · simp [HM.get, hp, ih]

theorem hasEdge_congr {V V' E : Type} {g : Graph V E} {g' : Graph V' E}
    (h : ∀ k, (HM.get k g).map Vertex.edges = (HM.get k g').map Vertex.edges)
    {u v : Idx} (he : HasEdge g u v) : HasEdge g' u v := by
  obtain ⟨vx, hvx, hvt⟩ := he
  have hu := h u
  rw [hvx] at hu
  obtain ⟨vx', hvx', hew⟩ := Option.map_eq_some'.1 hu.symm
  exact ⟨vx', hvx', hew ▸ hvt⟩

theorem pathN_congr {V V' E : Type} {g : Graph V E} {g' : Graph V' E} {s : Idx}
    (h : ∀ k, (HM.get k g).map Vertex.edges = (HM.get k g').map Vertex.edges)
    {v : Idx} {n : Nat} (hp : PathN g s v n) : PathN g' s v n := by
  induction hp with
  | nil hs =>
    refine PathN.nil ?_
    rw [← optIsSome_map Vertex.edges, ← h s, optIsSome_map]
    exact hs
  | step hp he ih => exact PathN.step ih (hasEdge_congr h he)

theorem pathN_end_present {V E : Type} {g : Graph V E} {s v : Idx} {n : Nat}
    (hwf : Graph.WF g) (hp : PathN g s v n) : (HM.get v g).isSome = true := by
  induction hp with
  | nil hs => exact hs
  | step hp he ih =>
    obtain ⟨vx, hvx, hvt⟩ := he
    obtain ⟨ew, hew⟩ := Option.isSome_iff_exists.1 hvt
    have := hwf.2.2 _ (HM.mem_of_get_eq_some hvx) _ (HM.mem_of_get_eq_some hew)
    rw [HM.containsKey] at this
    exact this

/-- Any walk from a non-`White` source to a `White` vertex passes through a
`Grey` vertex strictly before its end, provided every `Black` vertex's
out-neighbors are non-`White`. -/
theorem white_barrier {V E : Type} {g : BGraph V E} {s : Idx}
    (hsrc : ∀ vx, HM.get s g = some vx → vx.weight.color ≠ Color.White)
    (hblack : ∀ u vxu, HM.get u g = some vxu → vxu.weight.color = Color.Black →
      ∀ e ∈ vxu.edges, ∀ vxv, HM.get e.1 g = some vxv →
        vxv.weight.color ≠ Color.White) :
    ∀ {v : Idx} {n : Nat}, PathN g s v n →
      ∀ vxv, HM.get v g = some vxv → vxv.weight.color = Color.White →
      ∃ u i vxu, PathN g s u i ∧ i < n ∧ HM.get u g = some vxu ∧
        vxu.weight.color = Color.Grey := by
  intro v n hp
  induction hp with
  | nil hs =>
    intro vxv hv hw
    exact absurd hw (hsrc vxv hv)
  | @step u v n hp he ih =>
    intro vxv hv hw
    obtain ⟨vxu, hvxu, hedge⟩ := he
    cases hcol : vxu.weight.color with
    | White =>
      obtain ⟨u', i, vxu', hpath, hlt, hget, hGrey⟩ := ih vxu hvxu hcol
      exact ⟨u', i, vxu', hpath, Nat.lt_succ_of_lt hlt, hget, hGrey⟩
    | Grey => exact ⟨u, n, vxu, hp, Nat.lt_succ_self n, hvxu, hcol⟩
    | Black =>
      obtain ⟨ew, hew⟩ := Option.isSome_iff_exists.1 hedge
      exact absurd hw
        (hblack u vxu hvxu hcol (v, ew) (HM.mem_of_get_eq_some hew) vxv hv)

/-! ## Structural characterization of the decoration pass on WF graphs -/

theorem Graph.phase1_eq_map {V E NV NE : Type} (vmap : Idx → Option NV)
    (F : Idx × Vertex V E → NV) :
    ∀ (l : List (Idx × Vertex V E)) (acc : Graph NV NE),
      (∀ p ∈ l, vmap p.1 = some (F p)) →
      (HM.keys l).Nodup →
      (∀ a ∈ HM.keys acc, a ∉ HM.keys l) →
      l.foldl
        (fun out p =>
          match vmap p.1 with
          | some w => Graph.insertOrUpdateVertex out w p.1
          | none => out) acc
        = acc ++ l.map (fun p => (p.1, ⟨F p, []⟩)) := by
  intro l
  induction l with
  | nil => intro acc _ _ _; simp
  | cons p rest ih =>
    intro acc hF hnd hdisj
    rw [HM.keys_cons] at hnd
    rcases List.nodup_cons.1 hnd with ⟨hpr, hndr⟩
    have hp_not_acc : p.1 ∉ HM.keys acc := by
      intro hmem
      exact hdisj p.1 hmem (by rw [HM.keys_cons]; exact List.mem_cons_self _ _)
    have hstep : Graph.insertOrUpdateVertex acc (F p) p.1
        = acc ++ [(p.1, ⟨F p, []⟩)] := by
      simp only [Graph.insertOrUpdateVertex,
        HM.get_eq_none_of_not_mem hp_not_acc, Option.map_none', Option.getD_none,
        HM.remove_not_mem hp_not_acc, HM.insert_not_mem _ hp_not_acc]
    have hdisj' : ∀ a ∈ HM.keys (acc ++ [(p.1, (⟨F p, []⟩ : Vertex NV NE))]),
        a ∉ HM.keys rest := by
      intro a ha
      rw [show HM.keys (acc ++ [(p.1, (⟨F p, []⟩ : Vertex NV NE))])
          = HM.keys acc ++ [p.1] from by simp [HM.keys]] at ha
      rcases List.mem_append.1 ha with ha | ha
      · intro har
        exact hdisj a ha (by rw [HM.keys_cons]; exact List.mem_cons_of_mem _ har)
      · rw [List.mem_singleton] at ha
        subst ha
        exact hpr
    simp only [List.foldl_cons, hF p (List.mem_cons_self p rest)]
    rw [hstep, ih (acc ++ [(p.1, (⟨F p, []⟩ : Vertex NV NE))])
      (fun q hq => hF q (List.mem_cons_of_mem _ hq)) hndr hdisj',
      List.append_assoc]
    rfl

theorem Graph.edgePass_id_filled {E NV : Type} (f : Idx) :
    ∀ (es : List (Idx × E)) (out : Graph NV E) (w : NV) (es0 : HM E),
      HM.get f out = some ⟨w, es0⟩ →
      (∀ e ∈ es, HM.containsKey e.1 out = true) →
      (∀ e ∈ es, e.1 ∉ HM.keys es0) →
      (HM.keys es).Nodup →
      Graph.edgePassVertex (fun _ _ e => some e) f es out
        = HM.insert f ⟨w, es0 ++ es⟩ out := by
  intro es
  induction es with
  | nil =>
    intro out w es0 hf _ _ _
    rw [show Graph.edgePassVertex (fun _ _ e => (some e : Option E)) f [] out
        = out from rfl, List.append_nil]
    exact (HM.insert_get_self hf).symm
  | cons e rest ih =>
    intro out w es0 hf hcont hdisj hnd
    rw [HM.keys_cons] at hnd
    rcases List.nodup_cons.1 hnd with ⟨her, hndr⟩
    have hct : HM.containsKey e.1 out = true := hcont e (List.mem_cons_self e rest)
    obtain ⟨tv, htv⟩ := Option.isSome_iff_exists.1 hct
    have hins : Graph.insertOrUpdateEdge out f e.1 e.2
        = some (HM.insert f ⟨w, es0 ++ [e]⟩ out) := by
      simp only [Graph.insertOrUpdateEdge, hct, if_true, hf]
      rw [HM.insert_not_mem _ (hdisj e (List.mem_cons_self e rest))]
    rw [show Graph.edgePassVertex (fun _ _ e => (some e : Option E)) f (e :: rest) out
        = Graph.edgePassVertex (fun _ _ e => (some e : Option E)) f rest
            ((Graph.insertOrUpdateEdge out f e.1 e.2).getD out) from by
      simp only [Graph.edgePassVertex, hf, htv]]
    rw [hins, Option.getD_some]
    have hcont' : ∀ e' ∈ rest, HM.containsKey e'.1
        (HM.insert f ⟨w, es0 ++ [e]⟩ out) = true := by
      intro e' he'
      exact HM.contains_insert_of _ (hcont e' (List.mem_cons_of_mem _ he'))
    have hdisj' : ∀ e' ∈ rest, e'.1 ∉ HM.keys (es0 ++ [e]) := by
      intro e' he'
      rw [show HM.keys (es0 ++ [e]) = HM.keys es0 ++ [e.1] from by simp [HM.keys]]
      intro hmem
      rcases List.mem_append.1 hmem with hmem | hmem
      · exact hdisj e' (List.mem_cons_of_mem _ he') hmem
      · rw [List.mem_singleton] at hmem
        exact her (hmem ▸ HM.mem_keys_of_mem he')
    rw [ih (HM.insert f ⟨w, es0 ++ [e]⟩ out) w (es0 ++ [e]) (HM.get_insert_self ..)
      hcont' hdisj' hndr, HM.insert_insert_self, List.append_assoc]
    rfl

theorem Graph.phase2_id_fold {V E NV : Type} :
    ∀ (l : List (Idx × Vertex V E)) (out : Graph NV E),
      (HM.keys l).Nodup →
      (∀ p ∈ l, ∃ w, HM.get p.1 out = some ⟨w, []⟩) →
      (∀ p ∈ l, ∀ e ∈ p.2.edges, HM.containsKey e.1 out = true) →
      (∀ p ∈ l, (HM.keys p.2.edges).Nodup) →
      (∀ p ∈ l, ∃ w, HM.get p.1
          (l.foldl (fun out q =>
            Graph.edgePassVertex (fun _ _ e => some e) q.1 q.2.edges out) out)
        = some ⟨w, p.2.edges⟩) ∧
      (∀ k, k ∉ HM.keys l → HM.get k
          (l.foldl (fun out q =>
            Graph.edgePassVertex (fun _ _ e => some e) q.1 q.2.edges out) out)
        = HM.get k out) := by
  intro l
  induction l with
  | nil => intro out _ _ _ _; exact ⟨by simp, fun k _ => rfl⟩
  | cons p rest ih =>
    intro out hnd hslots htg hednd
    rw [HM.keys_cons] at hnd
    rcases List.nodup_cons.1 hnd with ⟨hpr, hndr⟩
    obtain ⟨w, hw⟩ := hslots p (List.mem_cons_self p rest)
    have hfill : Graph.edgePassVertex (fun _ _ e => some e) p.1 p.2.edges out
        = HM.insert p.1 ⟨w, p.2.edges⟩ out := by
      have := Graph.edgePass_id_filled p.1 p.2.edges out w [] hw
        (htg p (List.mem_cons_self p rest)) (by intro e _; simp [HM.keys])
        (hednd p (List.mem_cons_self p rest))
      simpa using this
    have hslots' : ∀ q ∈ rest, ∃ w', HM.get q.1
        (HM.insert p.1 ⟨w, p.2.edges⟩ out) = some ⟨w', []⟩ := by
      intro q hq
      obtain ⟨w', hw'⟩ := hslots q (List.mem_cons_of_mem _ hq)
      refine ⟨w', ?_⟩
      rw [HM.get_insert_ne _ _ (fun hc => hpr (by rw [← hc]; exact HM.mem_keys_of_mem hq))]
      exact hw'
    have htg' : ∀ q ∈ rest, ∀ e ∈ q.2.edges, HM.containsKey e.1
        (HM.insert p.1 ⟨w, p.2.edges⟩ out) = true := by
      intro q hq e he
      exact HM.contains_insert_of _ (htg q (List.mem_cons_of_mem _ hq) e he)
    obtain ⟨ihA, ihB⟩ := ih (HM.insert p.1 ⟨w, p.2.edges⟩ out) hndr hslots' htg'
      (fun q hq => hednd q (List.mem_cons_of_mem _ hq))
    constructor
    · intro q hq
      rcases List.mem_cons.1 hq with rfl | hq'
      · refine ⟨w, ?_⟩
        rw [List.foldl_cons, hfill, ihB q.1 hpr, HM.get_insert_self]
      · obtain ⟨w', hw'⟩ := ihA q hq'
        refine ⟨w', ?_⟩
        rw [List.foldl_cons, hfill]
        exact hw'
    · intro k hk
      rw [HM.keys_cons, List.mem_cons] at hk
      push_neg at hk
      rw [List.foldl_cons, hfill, ihB k hk.2,
        HM.get_insert_ne _ _ hk.1]

theorem Graph.edgePass_keys {E NV NE : Type}
    (emap : (Idx × Vertex NV NE) → (Idx × Vertex NV NE) → E → Option NE)
    (f : Idx) :
    ∀ (es : List (Idx × E)) (out : Graph NV NE),
      HM.keys (Graph.edgePassVertex emap f es out) = HM.keys out := by
  intro es
  induction es with
  | nil => intro out; rfl
  | cons e rest ih =>
    intro out
    rcases hf : HM.get f out with _ | fv
    · simp [Graph.edgePassVertex, hf]
    · rcases ht : HM.get e.1 out with _ | tv
      · simp only [Graph.edgePassVertex, hf, ht]
        exact ih out
      · rcases he : emap (f, fv) (e.1, tv) e.2 with _ | nw
        · simp only [Graph.edgePassVertex, hf, ht, he]
          exact ih out
        · simp only [Graph.edgePassVertex, hf, ht, he]
          rw [ih]
          rcases hins : Graph.insertOrUpdateEdge out f e.1 nw with _ | out'
          · simp
          · obtain ⟨vx, _, hfv, rfl⟩ := Graph.insertOrUpdateEdge_inv hins
            simp only [Option.getD_some]
            exact HM.keys_insert_found hfv _

theorem Graph.foldl_edgePass_keys {V E NV NE : Type}
    (emap : (Idx × Vertex NV NE) → (Idx × Vertex NV NE) → E → Option NE) :
    ∀ (l : List (Idx × Vertex V E)) (acc : Graph NV NE),
      HM.keys (l.foldl
        (fun out q => Graph.edgePassVertex emap q.1 q.2.edges out) acc)
      = HM.keys acc := by
  intro l
  induction l with
  | nil => intro acc; rfl
  | cons p rest ih =>
    intro acc
    rw [List.foldl_cons, ih, Graph.edgePass_keys]

/-- On a well-formed input graph, the decoration pass preserves the edge
structure pointwise and the number of vertices. -/
theorem bfsInit_spec {V E : Type} (g : Graph V E) (s : Idx) (hwf : Graph.WF g) :
    (∀ k, (HM.get k (bfsInit g s)).map Vertex.edges
      = (HM.get k g).map Vertex.edges) ∧
    (bfsInit g s).length = g.length := by
  obtain ⟨h1, h2, h3⟩ := hwf
  have hF : ∀ p ∈ g, bfsVmap g s p.1 = some (bfsF s p) := by
    intro p hp
    simp only [bfsVmap, bfsF]
    rw [HM.get_of_mem_nodup h1 hp]
    rfl
  have hphase1 : @Graph.filterMapVertices V E (EnhancedWeight V) E g (bfsVmap g s)
      = g.map (fun p => (p.1, (⟨bfsF s p, []⟩ : Vertex (EnhancedWeight V) E))) := by
    rw [Graph.filterMapVertices]
    have := @Graph.phase1_eq_map V E (EnhancedWeight V) E (bfsVmap g s) (bfsF s)
      g [] hF h1 (by intro a ha; simp [HM.keys] at ha)
    simpa using this
  have hgetmap : ∀ k, HM.get k
      (g.map (fun p => (p.1, (⟨bfsF s p, []⟩ : Vertex (EnhancedWeight V) E))))
      = (HM.get k g).map
          (fun vx => (⟨bfsF s (k, vx), []⟩ : Vertex (EnhancedWeight V) E)) :=
    fun k => HM.get_mapidx
      (fun a vx => (⟨bfsF s (a, vx), []⟩ : Vertex (EnhancedWeight V) E)) k g
  have hslots : ∀ p ∈ g, ∃ w, HM.get p.1
      (g.map (fun p => (p.1, (⟨bfsF s p, []⟩ : Vertex (EnhancedWeight V) E))))
      = some ⟨w, []⟩ := by
    intro p hp
    refine ⟨bfsF s p, ?_⟩
    rw [hgetmap p.1, HM.get_of_mem_nodup h1 hp]
    rfl
  have htargets : ∀ p ∈ g, ∀ e ∈ p.2.edges, HM.containsKey e.1
      (g.map (fun p => (p.1, (⟨bfsF s p, []⟩ : Vertex (EnhancedWeight V) E))))
      = true := by
    intro p hp e he
    have h := h3 p hp e he
    rw [HM.containsKey] at h ⊢
    rw [hgetmap e.1, optIsSome_map]
    exact h
  have hfold := Graph.phase2_id_fold g
    (g.map (fun p => (p.1, (⟨bfsF s p, []⟩ : Vertex (EnhancedWeight V) E))))
    h1 hslots htargets h2
  have hinit : bfsInit g s
      = g.foldl (fun out q =>
          Graph.edgePassVertex (fun _ _ e => some e) q.1 q.2.edges out)
          (g.map (fun p => (p.1, (⟨bfsF s p, []⟩ : Vertex (EnhancedWeight V) E)))) := by
    rw [bfsInit, Graph.filterMap, hphase1]
  constructor
  · intro k
    rcases hg : HM.get k g with _ | vx
    · have hk : k ∉ HM.keys g := by
        intro hmem
        have := (HM.get_isSome_iff k g).2 hmem
        rw [hg] at this
        cases this
      rw [hinit, hfold.2 k hk, hgetmap k, hg]
      rfl
    · obtain ⟨w, hw⟩ := hfold.1 (k, vx) (HM.mem_of_get_eq_some hg)
      rw [hinit,
        show HM.get k (g.foldl (fun out q =>
            Graph.edgePassVertex (fun _ _ e => some e) q.1 q.2.edges out)
            (g.map (fun p =>
              (p.1, (⟨bfsF s p, []⟩ : Vertex (EnhancedWeight V) E)))))
          = some (⟨w, vx.edges⟩ : Vertex (EnhancedWeight V) E) from hw]
      rfl
  · have hkeys : HM.keys (bfsInit g s) = HM.keys
        (g.map (fun p => (p.1, (⟨bfsF s p, []⟩ : Vertex (EnhancedWeight V) E)))) := by
      rw [hinit]
      exact Graph.foldl_edgePass_keys (fun _ _ e => some e) g _
    have hlen1 : (bfsInit g s).length = (HM.keys (bfsInit g s)).length := by
      simp [HM.keys]
    rw [hlen1, hkeys]
    simp [HM.keys]

/-! ## The discovery step preserves the BFS invariant -/

theorem discover_inv {V E : Type} {s cur : Idx}
    {cvx : Vertex (EnhancedWeight V) E} {dc : Nat} :
    ∀ (ns : List Idx) (g : BGraph V E) (q : List Idx),
      DInv s cur cvx dc g q →
      (∀ n ∈ ns, HasEdge g cur n) →
      ∃ g' q', discoverNeighbors dc cur ns g q = some (g', q') ∧
        DInv s cur cvx dc g' q' ∧
        (∀ k, (HM.get k g').map Vertex.edges = (HM.get k g).map Vertex.edges) ∧
        (∀ v vx, HM.get v g = some vx → vx.weight.color ≠ Color.White →
          HM.get v g' = some vx) ∧
        (∀ m ∈ ns, ∀ vx, HM.get m g' = some vx →
          vx.weight.color ≠ Color.White) ∧
        2 * countWhite g' + q'.length ≤ 2 * countWhite g + q.length ∧
        g'.length = g.length := by
  intro ns
  induction ns with
  | nil =>
    intro g q hDI _
    exact ⟨g, q, rfl, hDI, fun k => rfl, fun v vx h _ => h, by simp,
      le_refl _, rfl⟩
  | cons n rest ih =>
    intro g q hDI hns
    have hcvxGrey : cvx.weight.color = Color.Grey :=
      (hDI.grey cur cvx hDI.curE).2 (Or.inr rfl)
    -- the head neighbor is present in the graph
    obtain ⟨cvx0, hcvx0, hedge0⟩ := hns n (List.mem_cons_self n rest)
    rw [hDI.curE] at hcvx0
    cases hcvx0
    obtain ⟨ew, hew⟩ := Option.isSome_iff_exists.1 hedge0
    have hnpres : (HM.get n g).isSome = true := by
      have := hDI.wf.2.2 (cur, cvx) (HM.mem_of_get_eq_some hDI.curE)
        (n, ew) (HM.mem_of_get_eq_some hew)
      rw [HM.containsKey] at this
      exact this
    obtain ⟨nvx, hnvx⟩ := Option.isSome_iff_exists.1 hnpres
    by_cases hcol : nvx.weight.color = Color.White
    · -- the neighbor is discovered
      set nvx' : Vertex (EnhancedWeight V) E :=
        ⟨⟨some cur, (dc + 1) % 2 ^ 32, Color.Grey, nvx.weight.weight⟩,
          nvx.edges⟩ with hnvx'def
      have h_n_ne_cur : n ≠ cur := by
        intro h
        rw [h, hDI.curE] at hnvx
        cases hnvx
        rw [hcvxGrey] at hcol
        cases hcol
      have h_n_ne_s : n ≠ s := by
        intro h
        rw [h] at hnvx
        exact (hDI.srcF nvx hnvx).1 hcol
      have h_n_notq : n ∉ q := by
        intro hq
        have := (hDI.grey n nvx hnvx).2 (Or.inl hq)
        rw [this] at hcol
        cases hcol
      have hdc1 : dc + 1 ≤ countNW g := by
        have h := hDI.distB cur cvx hDI.curE (by rw [hcvxGrey]; intro hc; cases hc)
        rw [hDI.curD] at h
        exact h
      have hcnw_len : countNW g ≤ g.length := by
        have := countWhite_add_countNW g
        omega
      have no_wrap : (dc + 1) % 2 ^ 32 = dc + 1 :=
        Nat.mod_eq_of_lt (by have := hDI.sizeB; omega)
      have hD1 : nvx'.weight.distance = dc + 1 := no_wrap
      have hget1_self : HM.get n (HM.insert n nvx' g) = some nvx' :=
        HM.get_insert_self ..
      have hagree1 : ∀ k, (HM.get k (HM.insert n nvx' g)).map Vertex.edges
          = (HM.get k g).map Vertex.edges :=
        HM.get_insert_found_mapedges hnvx rfl
      have hpres1 : ∀ v, (HM.get v g).isSome = true →
          (HM.get v (HM.insert n nvx' g)).isSome = true := by
        intro v hv
        rw [← optIsSome_map Vertex.edges, hagree1 v, optIsSome_map]
        exact hv
      have hcnw1 : countNW (HM.insert n nvx' g) = countNW g + 1 := by
        have h := countNW_insert_found nvx' hnvx
        rw [if_pos hcol] at h
        rw [show (if nvx'.weight.color = Color.White then 0 else 1) = 1 from rfl] at h
        omega
      have hcw1 : countWhite (HM.insert n nvx' g) + 1 = countWhite g := by
        have h := countWhite_insert_found nvx' hnvx
        rw [if_pos hcol] at h
        rw [show (if nvx'.weight.color = Color.White then 1 else 0) = 0 from rfl] at h
        omega
      have hp_cur : PathN g s cur dc := by
        have h := (hDI.reached cur cvx hDI.curE
          (by rw [hcvxGrey]; intro hc; cases hc)).1
        rw [hDI.curD] at h
        exact h
      have hDI1 : DInv s cur cvx dc (HM.insert n nvx' g) (q ++ [n]) := by
        refine ⟨Graph.wf_replace hDI.wf hnvx rfl, ?_, hDI.curD, ?_, ?_, ?_, ?_,
          ?_, ?_, ?_, ?_, ?_, ?_, ?_, ?_, ?_⟩
        · rw [HM.get_insert_ne _ _ (Ne.symm h_n_ne_cur)]
          exact hDI.curE
        · exact hpres1 s hDI.srcIn
        · intro vx h
          rw [HM.get_insert_ne _ _ (Ne.symm h_n_ne_s)] at h
          exact hDI.srcF vx h
        · intro v hv
          rcases List.mem_append.1 hv with hv | hv
          · exact hpres1 v (hDI.qSub v hv)
          · rw [List.mem_singleton] at hv
            subst hv
            rw [hget1_self]
            rfl
        · rw [List.nodup_append]
          exact ⟨hDI.qNodup, List.nodup_singleton n, by
            intro a ha hb
            rw [List.mem_singleton] at hb
            subst hb
            exact h_n_notq ha⟩
        · intro hv
          rcases List.mem_append.1 hv with hv | hv
          · exact hDI.curNotQ hv
          · rw [List.mem_singleton] at hv
            exact h_n_ne_cur hv.symm
        · intro v vx h
          by_cases hvn : v = n
          · subst hvn
            rw [hget1_self] at h
            cases h
            simp [List.mem_append]
          · rw [HM.get_insert_ne _ _ hvn] at h
            rw [hDI.grey v vx h, List.mem_append, List.mem_singleton]
            constructor
            · rintro (hq | hc)
              · exact Or.inl (Or.inl hq)
              · exact Or.inr hc
            · rintro ((hq | hq) | hc)
              · exact Or.inl hq
              · exact absurd hq hvn
              · exact Or.inr hc
        · obtain ⟨q1, q2, rfl, hq1, hq2⟩ := hDI.mono
          refine ⟨q1, q2 ++ [n], by rw [List.append_assoc], ?_, ?_⟩
          · intro v hv
            obtain ⟨vx, hvx, hvd⟩ := hq1 v hv
            have hvn : v ≠ n := by
              intro hc
              exact h_n_notq (hc ▸ List.mem_append.2 (Or.inl hv))
            exact ⟨vx, by rw [HM.get_insert_ne _ _ hvn]; exact hvx, hvd⟩
          · intro v hv
            rcases List.mem_append.1 hv with hv | hv
            · obtain ⟨vx, hvx, hvd⟩ := hq2 v hv
              have hvn : v ≠ n := by
                intro hc
                exact h_n_notq (hc ▸ List.mem_append.2 (Or.inr hv))
              exact ⟨vx, by rw [HM.get_insert_ne _ _ hvn]; exact hvx, hvd⟩
            · rw [List.mem_singleton] at hv
              subst hv
              exact ⟨nvx', hget1_self, hD1⟩
        · intro v vx h hg
          by_cases hvn : v = n
          · subst hvn
            rw [hget1_self] at h
            cases h
            rw [hD1]
            omega
          · rw [HM.get_insert_ne _ _ hvn] at h
            exact hDI.greyD v vx h hg
        · intro v vx h hnw
          by_cases hvn : v = n
          · subst hvn
            rw [hget1_self] at h
            cases h
            constructor
            · rw [hD1]
              refine pathN_congr (fun k => (hagree1 k).symm) ?_
              exact PathN.step hp_cur ⟨cvx, hDI.curE, hedge0⟩
            · intro m hm
              rw [hD1]
              have hmg := pathN_congr hagree1 hm
              obtain ⟨u, i, vxu, hpu, hlt, hgu, hGrey⟩ :=
                white_barrier (fun vx h => (hDI.srcF vx h).1) hDI.blackCl
                  hmg nvx hnvx hcol
              have hdu := hDI.greyD u vxu hgu hGrey
              have hmin := (hDI.reached u vxu hgu
                (by rw [hGrey]; intro hc; cases hc)).2 i hpu
              omega
          · rw [HM.get_insert_ne _ _ hvn] at h
            obtain ⟨hpath, hmin⟩ := hDI.reached v vx h hnw
            constructor
            · exact pathN_congr (fun k => (hagree1 k).symm) hpath
            · intro m hm
              exact hmin m (pathN_congr hagree1 hm)
        · intro v vx h hw
          by_cases hvn : v = n
          · subst hvn
            rw [hget1_self] at h
            cases h
            cases hw
          · rw [HM.get_insert_ne _ _ hvn] at h
            exact hDI.whiteF v vx h hw
        · intro u vxu h hb e he vxv hv
          have hun : u ≠ n := by
            intro hc
            subst hc
            rw [hget1_self] at h
            cases h
            cases hb
          rw [HM.get_insert_ne _ _ hun] at h
          by_cases hen : e.1 = n
          · rw [hen, hget1_self] at hv
            cases hv
            intro hc
            cases hc
          · rw [HM.get_insert_ne _ _ hen] at hv
            exact hDI.blackCl u vxu h hb e he vxv hv
        · intro v vx h hnw
          rw [hcnw1]
          by_cases hvn : v = n
          · subst hvn
            rw [hget1_self] at h
            cases h
            rw [hD1]
            omega
          · rw [HM.get_insert_ne _ _ hvn] at h
            have := hDI.distB v vx h hnw
            omega
        · rw [HM.length_insert_found hnvx]
          exact hDI.sizeB
      obtain ⟨g', q', hrun', hDI', hagree', hpresNW', hproc', hmeas', hlen'⟩ :=
        ih (HM.insert n nvx' g) (q ++ [n]) hDI1
          (fun m hm => hasEdge_congr (fun k => (hagree1 k).symm)
            (hns m (List.mem_cons_of_mem _ hm)))
      refine ⟨g', q', ?_, hDI', ?_, ?_, ?_, ?_, ?_⟩
      · rw [discoverNeighbors, hnvx]
        simp only [if_pos hcol]
        exact hrun'
      · intro k
        rw [hagree' k, hagree1 k]
      · intro v vx h hnw
        have hvn : v ≠ n := by
          intro hc
          rw [hc, hnvx] at h
          cases h
          exact hnw hcol
        exact hpresNW' v vx (by rw [HM.get_insert_ne _ _ hvn]; exact h) hnw
      · intro m hm vx h
        rcases List.mem_cons.1 hm with rfl | hm'
        · have := hpresNW' m nvx' hget1_self (by intro hc; cases hc)
          rw [this] at h
          cases h
          intro hc
          cases hc
        · exact hproc' m hm' vx h
      · have hq1len : (q ++ [n]).length = q.length + 1 := by simp
        rw [hq1len] at hmeas'
        omega
      · rw [hlen']
        exact HM.length_insert_found hnvx nvx'
    · -- the neighbor was already discovered: nothing changes
      obtain ⟨g', q', hrun', hDI', hagree', hpresNW', hproc', hmeas', hlen'⟩ :=
        ih g q hDI (fun m hm => hns m (List.mem_cons_of_mem _ hm))
      refine ⟨g', q', ?_, hDI', hagree', hpresNW', ?_, hmeas', hlen'⟩
      · rw [discoverNeighbors, hnvx]
        simp only [if_neg hcol]
        exact hrun'
      · intro m hm vx h
        rcases List.mem_cons.1 hm with rfl | hm'
        · have := hpresNW' m nvx hnvx hcol
          rw [this] at h
          cases h
          exact hcol
        · exact hproc' m hm' vx h

/-! ## The whole BFS loop preserves the invariant and empties the queue -/

theorem bfsLoop_inv {V E : Type} {s : Idx} :
    ∀ (fuel : Nat) (g : BGraph V E) (q : List Idx),
      BfsInv s g q →
      2 * countWhite g + q.length < fuel →
      ∃ g', bfsLoop fuel g q = some g' ∧ BfsInv s g' [] ∧
        (∀ k, (HM.get k g').map Vertex.edges = (HM.get k g).map Vertex.edges) := by
  intro fuel
  induction fuel with
  | zero => intro g q _ h; omega
  | succ fuel ih =>
    intro g q hInv hmeas
    match q with
    | [] => exact ⟨g, rfl, hInv, fun k => rfl⟩
    | cur :: rest =>
      obtain ⟨cvx, hcvx⟩ :=
        Option.isSome_iff_exists.1 (hInv.qSub cur (List.mem_cons_self cur rest))
      have hcvxGrey : cvx.weight.color = Color.Grey :=
        (hInv.grey cur cvx hcvx).2 (List.mem_cons_self cur rest)
      have hcvxNW : cvx.weight.color ≠ Color.White := by
        rw [hcvxGrey]
        intro hc
        cases hc
      rcases List.nodup_cons.1 hInv.qNodup with ⟨hcurrest, hrestnd⟩
      -- reshape the two-block queue structure around the dequeued head
      have hmono' : ∃ q1 q2, rest = q1 ++ q2 ∧
          (∀ v ∈ q1, ∃ vx, HM.get v g = some vx ∧
            vx.weight.distance = cvx.weight.distance) ∧
          (∀ v ∈ q2, ∃ vx, HM.get v g = some vx ∧
            vx.weight.distance = cvx.weight.distance + 1) := by
        obtain ⟨d1, q1, q2, heq, h1, h2⟩ := hInv.mono
        cases q1 with
        | nil =>
          rw [List.nil_append] at heq
          obtain ⟨vx', hget', hd'⟩ := h2 cur (heq ▸ List.mem_cons_self cur rest)
          rw [hcvx] at hget'
          cases hget'
          refine ⟨rest, [], (List.append_nil rest).symm, ?_, by simp⟩
          intro v hv
          obtain ⟨vx, hvx, hd⟩ := h2 v (heq ▸ List.mem_cons_of_mem _ hv)
          exact ⟨vx, hvx, by rw [hd, hd']⟩
        | cons c q1' =>
          rw [List.cons_append] at heq
          injection heq with hc hrest
          subst hc
          obtain ⟨vx', hget', hd'⟩ := h1 cur (List.mem_cons_self cur q1')
          rw [hcvx] at hget'
          cases hget'
          refine ⟨q1', q2, hrest, ?_, ?_⟩
          · intro v hv
            obtain ⟨vx, hvx, hd⟩ := h1 v (List.mem_cons_of_mem _ hv)
            exact ⟨vx, hvx, by rw [hd, hd']⟩
          · intro v hv
            obtain ⟨vx, hvx, hd⟩ := h2 v hv
            exact ⟨vx, hvx, by rw [hd, hd']⟩
      have hgreyD : ∀ v vx, HM.get v g = some vx →
          vx.weight.color = Color.Grey → cvx.weight.distance ≤ vx.weight.distance := by
        intro v vx h hg
        rcases List.mem_cons.1 ((hInv.grey v vx h).1 hg) with rfl | hv
        · rw [hcvx] at h
          cases h
          exact le_refl _
        · obtain ⟨q1, q2, heq, h1, h2⟩ := hmono'
          rw [heq] at hv
          rcases List.mem_append.1 hv with hv | hv
          · obtain ⟨vx1, hvx1, hd1⟩ := h1 v hv
            rw [h] at hvx1
            cases hvx1
            omega
          · obtain ⟨vx1, hvx1, hd1⟩ := h2 v hv
            rw [h] at hvx1
            cases hvx1
            omega
      have hDI : DInv s cur cvx cvx.weight.distance g rest := by
        refine ⟨hInv.wf, hcvx, rfl, hInv.srcIn, hInv.srcF,
          (fun v hv => hInv.qSub v (List.mem_cons_of_mem _ hv)), hrestnd,
          hcurrest, ?_, hmono', hgreyD, hInv.reached, hInv.whiteF,
          hInv.blackCl, hInv.distB, hInv.sizeB⟩
        intro v vx h
        rw [hInv.grey v vx h, List.mem_cons]
        constructor
        · rintro (hv | hv)
          · exact Or.inr hv
          · exact Or.inl hv
        · rintro (hv | hv)
          · exact Or.inr hv
          · exact Or.inl hv
      have hns : ∀ n ∈ HM.keys cvx.edges, HasEdge g cur n := by
        intro n hn
        exact ⟨cvx, hcvx, (HM.get_isSome_iff n cvx.edges).2 hn⟩
      obtain ⟨g1, q1, hrun, hDI1, hagree1, hpresNW1, hproc1, hmeas1, hlen1⟩ :=
        discover_inv (HM.keys cvx.edges) g rest hDI hns
      have hcur1 : HM.get cur g1 = some cvx := hDI1.curE
      set cvxB : Vertex (EnhancedWeight V) E :=
        ⟨⟨cvx.weight.parent, cvx.weight.distance, Color.Black,
          cvx.weight.weight⟩, cvx.edges⟩ with hcvxBdef
      have hget2self : HM.get cur (HM.insert cur cvxB g1) = some cvxB :=
        HM.get_insert_self ..
      have hagree2 : ∀ k, (HM.get k (HM.insert cur cvxB g1)).map Vertex.edges
          = (HM.get k g1).map Vertex.edges :=
        HM.get_insert_found_mapedges hcur1 rfl
      have hpres2 : ∀ v, (HM.get v g1).isSome = true →
          (HM.get v (HM.insert cur cvxB g1)).isSome = true := by
        intro v hv
        rw [← optIsSome_map Vertex.edges, hagree2 v, optIsSome_map]
        exact hv
      have hwf2 : Graph.WF (HM.insert cur cvxB g1) :=
        Graph.wf_replace hDI1.wf hcur1 rfl
      have hcnw2 : countNW (HM.insert cur cvxB g1) = countNW g1 := by
        have h := countNW_insert_found cvxB hcur1
        rw [show (if cvx.weight.color = Color.White then 0 else 1) = 1 from by
          simp [hcvxGrey], show (if cvxB.weight.color = Color.White then 0 else 1)
            = 1 from rfl] at h
        omega
      have hcw2 : countWhite (HM.insert cur cvxB g1) ≤ countWhite g1 := by
        have h := countWhite_insert_found cvxB hcur1
        rw [show (if cvxB.weight.color = Color.White then 1 else 0) = 0 from rfl] at h
        split at h <;> omega
      have hInv2 : BfsInv s (HM.insert cur cvxB g1) q1 := by
        refine ⟨hwf2, hpres2 s hDI1.srcIn, ?_, ?_, hDI1.qNodup, ?_, ?_, ?_, ?_,
          ?_, ?_, ?_⟩
        · intro vx h
          by_cases hsc : s = cur
          · subst hsc
            rw [hget2self] at h
            cases h
            obtain ⟨-, hd0, hp0⟩ := hDI1.srcF cvx hcur1
            exact ⟨(by intro hc; cases hc), hd0, hp0⟩
          · rw [HM.get_insert_ne _ _ hsc] at h
            exact hDI1.srcF vx h
        · intro v hv
          exact hpres2 v (hDI1.qSub v hv)
        · intro v vx h
          by_cases hvc : v = cur
          · subst hvc
            rw [hget2self] at h
            cases h
            constructor
            · intro hc
              cases hc
            · intro hv
              exact absurd hv hDI1.curNotQ
          · rw [HM.get_insert_ne _ _ hvc] at h
            rw [hDI1.grey v vx h]
            constructor
            · rintro (hv | hv)
              · exact hv
              · exact absurd hv hvc
            · intro hv
              exact Or.inl hv
        · obtain ⟨q1a, q2a, heq, h1, h2⟩ := hDI1.mono
          refine ⟨cvx.weight.distance, q1a, q2a, heq, ?_, ?_⟩
          · intro v hv
            obtain ⟨vx, hvx, hd⟩ := h1 v hv
            have hvc : v ≠ cur := by
              intro hc
              exact hDI1.curNotQ (hc ▸ (heq ▸ List.mem_append.2 (Or.inl hv)))
            exact ⟨vx, by rw [HM.get_insert_ne _ _ hvc]; exact hvx, hd⟩
          · intro v hv
            obtain ⟨vx, hvx, hd⟩ := h2 v hv
            have hvc : v ≠ cur := by
              intro hc
              exact hDI1.curNotQ (hc ▸ (heq ▸ List.mem_append.2 (Or.inr hv)))
            exact ⟨vx, by rw [HM.get_insert_ne _ _ hvc]; exact hvx, hd⟩
        · intro v vx h hnw
          by_cases hvc : v = cur
          · subst hvc
            rw [hget2self] at h
            cases h
            obtain ⟨hpath, hmin⟩ := hDI1.reached v cvx hcur1 (by
              rw [hcvxGrey]
              intro hc
              cases hc)
            constructor
            · exact pathN_congr (fun k => (hagree2 k).symm) hpath
            · intro m hm
              exact hmin m (pathN_congr hagree2 hm)
          · rw [HM.get_insert_ne _ _ hvc] at h
            obtain ⟨hpath, hmin⟩ := hDI1.reached v vx h hnw
            constructor
            · exact pathN_congr (fun k => (hagree2 k).symm) hpath
            · intro m hm
              exact hmin m (pathN_congr hagree2 hm)
        · intro v vx h hw
          have hvc : v ≠ cur := by
            intro hc
            subst hc
            rw [hget2self] at h
            cases h
            cases hw
          rw [HM.get_insert_ne _ _ hvc] at h
          exact hDI1.whiteF v vx h hw
        · intro u vxu h hb e he vxv hv
          by_cases huc : u = cur
          · rw [huc, hget2self] at h
            cases h
            have he' : e ∈ cvx.edges := he
            have hproc := hproc1 e.1 (HM.mem_keys_of_mem he')
            by_cases hec : e.1 = cur
            · rw [hec, hget2self] at hv
              cases hv
              intro hc
              cases hc
            · rw [HM.get_insert_ne _ _ hec] at hv
              exact hproc vxv hv
          · rw [HM.get_insert_ne _ _ huc] at h
            by_cases hec : e.1 = cur
            · rw [hec, hget2self] at hv
              cases hv
              intro hc
              cases hc
            · rw [HM.get_insert_ne _ _ hec] at hv
              exact hDI1.blackCl u vxu h hb e he vxv hv
        · intro v vx h hnw
          rw [hcnw2]
          by_cases hvc : v = cur
          · subst hvc
            rw [hget2self] at h
            cases h
            have := hDI1.distB v cvx hcur1 (by
              rw [hcvxGrey]
              intro hc
              cases hc)
            exact this
          · rw [HM.get_insert_ne _ _ hvc] at h
            exact hDI1.distB v vx h hnw
        · rw [HM.length_insert_found hcur1, hlen1]
          exact hInv.sizeB
      obtain ⟨g', hrun', hInv', hagree'⟩ := ih (HM.insert cur cvxB g1) q1 hInv2
        (by
          simp only [List.length_cons] at hmeas
          omega)
      refine ⟨g', ?_, hInv', ?_⟩
      · simp only [bfsLoop, hcvx, hrun, hcur1]
        exact hrun'
      · intro k
        rw [hagree' k, hagree2 k, hagree1 k]

/-! ## C1: full functional correctness of `breadth_first_search` -/

/-- C1: on a well-formed graph containing the source (with fewer than
`2 ^ 32` vertices, so that the `u32` distance arithmetic cannot wrap),
`breadth_first_search` returns a graph with exactly the original vertex
ids, the source at distance 0 with no parent, every reachable vertex at its
shortest-path distance in edge count, and every unreachable vertex at the
sentinel `u32::MAX` distance with no parent. -/
theorem C1_bfs_shortest_paths {V E : Type} (g : Graph V E) (s : Idx)
    (hwf : Graph.WF g) (hs : HM.containsKey s g = true)
    (hsize : g.length < 2 ^ 32) :
    BfsResultSpec g s := by
  obtain ⟨hagreeInit, hlenInit⟩ := bfsInit_spec g s hwf
  have hwfI : Graph.WF (bfsInit g s) := by
    rw [bfsInit]
    exact Graph.wf_filterMap g (bfsVmap g s) (fun _ _ e => some e)
  rw [HM.containsKey] at hs
  have hsI : (HM.get s (bfsInit g s)).isSome = true := (bfsInit_contains g s s).2 hs
  obtain ⟨svx, hsvx⟩ := Option.isSome_iff_exists.1 hsI
  obtain ⟨hsG, hsD, hsP⟩ := bfsInit_source_fields hsvx
  have hInv0 : BfsInv s (bfsInit g s) [s] := by
    refine ⟨hwfI, hsI, ?_, ?_, List.nodup_singleton s, ?_, ?_, ?_, ?_, ?_, ?_, ?_⟩
    · intro vx h
      rw [hsvx] at h
      cases h
      exact ⟨(by rw [hsG]; intro hc; cases hc), hsD, hsP⟩
    · intro v hv
      rw [List.mem_singleton] at hv
      subst hv
      exact hsI
    · intro v vx h
      rw [List.mem_singleton]
      by_cases hvs : v = s
      · subst hvs
        rw [hsvx] at h
        cases h
        simp [hsG]
      · obtain ⟨hW, -, -⟩ := bfsInit_nonsource_fields hvs h
        rw [hW]
        constructor
        · intro hc
          cases hc
        · intro hc
          exact absurd hc hvs
    · refine ⟨0, [s], [], rfl, ?_, by simp⟩
      intro v hv
      rw [List.mem_singleton] at hv
      subst hv
      exact ⟨svx, hsvx, hsD⟩
    · intro v vx h hnw
      by_cases hvs : v = s
      · subst hvs
        rw [hsvx] at h
        cases h
        rw [hsD]
        exact ⟨PathN.nil hsI, fun m _ => Nat.zero_le m⟩
      · obtain ⟨hW, -, -⟩ := bfsInit_nonsource_fields hvs h
        exact absurd hW hnw
    · intro v vx h hw
      by_cases hvs : v = s
      · subst hvs
        rw [hsvx] at h
        cases h
        rw [hsG] at hw
        cases hw
      · obtain ⟨-, hD, hP⟩ := bfsInit_nonsource_fields hvs h
        exact ⟨hD, hP⟩
    · intro u vxu h hb
      by_cases hus : u = s
      · subst hus
        rw [hsvx] at h
        cases h
        rw [hsG] at hb
        cases hb
      · obtain ⟨hW, -, -⟩ := bfsInit_nonsource_fields hus h
        rw [hW] at hb
        cases hb
    · intro v vx h hnw
      by_cases hvs : v = s
      · subst hvs
        rw [hsvx] at h
        cases h
        rw [hsD]
        exact countNW_pos hsvx (by rw [hsG]; intro hc; cases hc)
      · obtain ⟨hW, -, -⟩ := bfsInit_nonsource_fields hvs h
        exact absurd hW hnw
    · rw [hlenInit]
      exact hsize
  have hmeas : 2 * countWhite (bfsInit g s) + [s].length
      < 2 * (bfsInit g s).length + 1 := by
    have := countWhite_lt_length hsvx (by rw [hsG]; intro hc; cases hc)
    simp only [List.length_singleton]
    omega
  obtain ⟨R, hR, hInvR, hagreeR⟩ :=
    bfsLoop_inv (2 * (bfsInit g s).length + 1) (bfsInit g s) [s] hInv0 hmeas
  have hagreeRg : ∀ k, (HM.get k R).map Vertex.edges
      = (HM.get k g).map Vertex.edges :=
    fun k => (hagreeR k).trans (hagreeInit k)
  have hpresR : ∀ v, (HM.get v R).isSome = true ↔ (HM.get v g).isSome = true := by
    intro v
    rw [← optIsSome_map Vertex.edges, hagreeRg v, optIsSome_map]
  have hbfs : breadth_first_search g s = some R := by
    simp only [breadth_first_search]
    rw [show HM.containsKey s (bfsInit g s) = true from hsI]
    simp only [if_true]
    exact hR
  have hnoGrey : ∀ v vx, HM.get v R = some vx →
      vx.weight.color ≠ Color.Grey := by
    intro v vx h hg
    cases (hInvR.grey v vx h).1 hg
  refine ⟨R, hbfs, hpresR, ?_, ?_, ?_⟩
  · obtain ⟨vs, hvs⟩ := Option.isSome_iff_exists.1 hInvR.srcIn
    obtain ⟨-, hd, hp⟩ := hInvR.srcF vs hvs
    exact ⟨vs, hvs, hd, hp⟩
  · intro v hreach
    obtain ⟨n, hp⟩ := hreach
    have hpR : PathN R s v n := pathN_congr (fun k => (hagreeRg k).symm) hp
    have hvpres : (HM.get v R).isSome = true := pathN_end_present hInvR.wf hpR
    obtain ⟨vx, hvx⟩ := Option.isSome_iff_exists.1 hvpres
    have hnw : vx.weight.color ≠ Color.White := by
      intro hw
      obtain ⟨u, i, vxu, hpu, hlt, hgu, hGrey⟩ :=
        white_barrier (fun vx h => (hInvR.srcF vx h).1) hInvR.blackCl hpR
          vx hvx hw
      exact hnoGrey u vxu hgu hGrey
    obtain ⟨hpath, hmin⟩ := hInvR.reached v vx hvx hnw
    refine ⟨vx, hvx, pathN_congr hagreeRg hpath, ?_⟩
    intro m hm
    exact hmin m (pathN_congr (fun k => (hagreeRg k).symm) hm)
  · intro v vx hvx hnr
    by_cases hw : vx.weight.color = Color.White
    · exact hInvR.whiteF v vx hvx hw
    · obtain ⟨hpath, -⟩ := hInvR.reached v vx hvx hw
      exact absurd ⟨vx.weight.distance, pathN_congr hagreeRg hpath⟩ hnr

/-- Witness for C1 at the §8 scenario graph (A→B, A→C, C→A, D→A, D→B,
D→D): running BFS from A satisfies the full contract. -/
theorem C1_witness : BfsResultSpec gT 0 :=
  C1_bfs_shortest_paths gT 0 (by decide) (by decide) (by decide)
